import Mathlib

/-!
# A verification development for `framework` (custom-resource-type)

The Go package `framework` (files `interfaces.go`, `models.go`, `runner.go`)
is embedded shallowly:

* `ResourceType.Run` becomes the function `Run` on an explicit `World`
  (input stream, output stream, filesystem, process arguments, working
  directory) and returns the new world together with an `Outcome`
  (a returned `error`, `nil`, or a run-time panic).
* The three request types and `Response` of `models.go` are structures; the
  type parameters `S V G P` are Lean type parameters equipped with a `GoJson`
  codec (what `encoding/json` does for that type in strict mode).
* The parts of the Go standard library that `Run` calls are modelled from
  their documented behaviour, at the level `Run` can observe:
  `encoding/json` on JSON *values* (the lexical layer is not modelled: a
  stream is a sequence of documents; the strings of `MetadataField` are Go
  strings, which need not be valid UTF-8), `path/filepath.Abs`, and
  `os.Stat / os.MkdirAll / os.Symlink` on a filesystem with directories,
  files and symbolic links (permissions are not modelled).
* A capability is a function of its arguments; what an implementation does on
  its own (a Getter writes into its target directory) is not part of `Run`.
* A ghost `trace` records every primitive `Run` performs, so that
  "does not touch", "does not invoke" and "is not attempted" can be stated.
-/

namespace Framework

deriving instance DecidableEq for Except

/-! ## Go errors -/

/-- Go `error` values: `errors.New(msg)` / `fmt.Errorf` without `%w`, and
`fmt.Errorf("<context>: %w", cause)`. -/
inductive GoError where
  | new (msg : String)
  | wrap (context : String) (cause : GoError)
deriving DecidableEq, Repr

/-- The `Error()` string. -/
def GoError.message : GoError → String
  | .new m => m
  | .wrap ctx cause => ctx ++ ": " ++ cause.message

/-- The method `errors.Unwrap`. -/
def GoError.unwrap : GoError → Option GoError
  | .new _ => none
  | .wrap _ cause => some cause

/-! ## JSON values and the `encoding/json` codec of a Go type -/

/-- JSON values (numbers are restricted to integers). -/
inductive Json where
  | null
  | bool (b : Bool)
  | num (n : Int)
  | str (s : String)
  | arr (items : List Json)
  | obj (members : List (String × Json))

/-- The name `encoding/json` uses for the kind of a JSON value in an
`UnmarshalTypeError`. -/
def Json.kind : Json → String
  | .null => "null"
  | .bool _ => "bool"
  | .num _ => "number"
  | .str _ => "string"
  | .arr _ => "array"
  | .obj _ => "object"

/-- A Go slice: `nil` (never allocated) or allocated with elements
(possibly none). `encoding/json` distinguishes the two. -/
inductive GoSlice (α : Type) where
  | nil
  | mk (elems : List α)
deriving DecidableEq, Repr

/-- The elements of a slice (`range` over it). -/
def GoSlice.toList {α : Type} : GoSlice α → List α
  | .nil => []
  | .mk xs => xs

/-- A byte that is part of no rune, whatever stands next to it: a continuation
byte (`0x80` to `0xBF`) where no rune is under way, or a byte that occurs in
no UTF-8 encoding (`0xC0`, `0xC1`, `0xF5` to `0xFF`). -/
def isStrayByte (n : Nat) : Bool := (0x80 ≤ n && n ≤ 0xC1) || (0xF5 ≤ n && n ≤ 0xFF)

/-- One element of a Go `string`, which is a sequence of bytes, as
`encoding/json` reads it with `utf8.DecodeRune`: a rune in valid UTF-8, or a
stray byte. (A string that breaks off in the middle of a rune is not
represented.) -/
inductive GoChar where
  | rune (c : Char)
  | invalid (byte : { n : Nat // isStrayByte n = true })
deriving DecidableEq

/-- A Go `string`. -/
abbrev GoString := List GoChar

/-- The Go string with the UTF-8 encoding of a text. -/
def GoString.ofString (s : String) : GoString := s.data.map GoChar.rune

/-- The text `json.Marshal` writes for a string: "invalid UTF-8 sequences ... are
coerced to valid UTF-8 by replacing invalid bytes with the Unicode
replacement rune". -/
def GoString.toJson (s : GoString) : String :=
  String.mk (s.map fun g =>
    match g with
    | .rune c => c
    | .invalid _ => Char.ofNat 0xFFFD)

/-- The string is valid UTF-8. -/
def GoString.ValidUTF8 (s : GoString) : Prop := ∀ g ∈ s, ∃ c, g = GoChar.rune c

/-- The result of decoding into a value: an error that ends decoding (the
error of an `Unmarshaler`), or the value as far as it could be stored
together with the error that was saved on the way (an `UnmarshalTypeError`,
an unknown field), if any; decoding goes on after a saved error and
`Unmarshal` returns the first one at its end. -/
abbrev Decoded (α : Type) := Except GoError (α × Option GoError)

/-- The end of `Unmarshal`: "return d.savedError". -/
def finishDecode {α : Type} : Decoded α → Except GoError α
  | .error e => .error e
  | .ok (_, some e) => .error e
  | .ok (x, none) => .ok x

def Decoded.map {α β : Type} (f : α → β) (d : Decoded α) : Decoded β :=
  Except.map (fun r => (f r.1, r.2)) d

/-- The base64 text of a slice of bytes, and its decoding. -/
structure ByteText (α : Type) where
  encode : List α → String
  decode : String → Except GoError (List α)

/-- What `encoding/json` does for a Go type used as a type argument:
the name `reflect` prints for it (`typeName`, with the package name) and the
name it has among the type arguments of an instantiated generic type
(`typeArg`, with the import path), its zero value, `Unmarshal` *into an
existing value* (with unknown fields disallowed), and `Marshal`. The field
`bytes` is set for a type of kind `uint8` without marshalling methods of its
own: a slice of such a type is written as base64 text, not as an array. -/
class GoJson (α : Type) where
  typeName : String
  typeArg : String
  zero : α
  unmarshal : Json → α → Decoded α
  marshal : α → Except GoError Json
  bytes : Option (ByteText α) := none

/-! ## models.go -/

structure MetadataField where
  Name : GoString
  Value : GoString
deriving DecidableEq

structure CheckRequest (S V : Type) where
  Source : S
  Version : Option V

structure GetRequest (S V P : Type) where
  Source : S
  Version : V
  Params : P

structure PutRequest (S P : Type) where
  Source : S
  Params : P

structure Response (V : Type) where
  Version : V
  Metadata : GoSlice MetadataField

/-! ## interfaces.go -/

/-- The method `Checker.Check`. -/
abbrev Checker (S V : Type) := CheckRequest S V → Except GoError (GoSlice V)

/-- The method `Getter.Get`. -/
abbrev Getter (S V P : Type) := String → GetRequest S V P → Except GoError (Response V)

/-- The method `Putter.Put`. -/
abbrev Putter (S V P : Type) := String → PutRequest S P → Except GoError (Response V)

/-! ## Struct decoding of `encoding/json` with `DisallowUnknownFields` -/

/-- Case folding of one rune of an object key, as far as it can matter for
ASCII field names: ASCII letters fold to upper case, U+017F (long s) and
U+212A (Kelvin sign) fold to `S` and `K`. -/
def foldRune (c : Char) : Char :=
  if 'a' ≤ c ∧ c ≤ 'z' then Char.ofNat (c.toNat - 32)
  else if c = Char.ofNat 0x17F then 'S'
  else if c = Char.ofNat 0x212A then 'K'
  else c

def foldName (s : String) : List Char := s.data.map foldRune

/-- The struct field an object key is stored into: "preferring an exact match
but also accepting a case-insensitive match" (documentation of
`json.Unmarshal`). -/
def matchField (declared : List String) (key : String) : Option String :=
  match declared.find? (fun f => f = key) with
  | some f => some f
  | none => declared.find? (fun f => foldName f = foldName key)

/-- The error `fmt.Errorf("json: unknown field %q", key)`. -/
def unknownFieldError (key : String) : GoError :=
  .new ("json: unknown field \"" ++ key ++ "\"")

/-- The text of an `UnmarshalTypeError` (the struct and field that
`encoding/json` adds to it for a value inside a struct are left out). -/
def typeError (j : Json) (typeName : String) : GoError :=
  .new ("json: cannot unmarshal " ++ j.kind ++ " into Go value of type " ++ typeName)

/-- The members of a JSON object are stored in order into a struct value.
A key that matches no field is skipped; with `disallowUnknownFields` it is a
saved error. The first saved error, of a key or of a field's decoder, is
kept and decoding goes on; an error with which a field's decoder ends
decoding ends it here too. -/
def decodeMembers {ρ : Type} (disallowUnknownFields : Bool) (declared : List String)
    (store : String → Json → ρ → Decoded ρ) :
    List (String × Json) → ρ → Option GoError → Decoded ρ
  | [], r, saved => .ok (r, saved)
  | (key, v) :: rest, r, saved =>
    match matchField declared key with
    | none =>
      if disallowUnknownFields then
        decodeMembers disallowUnknownFields declared store rest r
          (saved.orElse (fun _ => some (unknownFieldError key)))
      else decodeMembers disallowUnknownFields declared store rest r saved
    | some f =>
      match store f v r with
      | .error e => .error e
      | .ok (r2, s2) =>
        decodeMembers disallowUnknownFields declared store rest r2 (saved.orElse (fun _ => s2))

/-- Decoding a JSON value into a struct: `null` leaves the value as it is,
an object is read member by member, anything else is a saved
`UnmarshalTypeError`. -/
def decodeStruct {ρ : Type} (typeName : String) (disallowUnknownFields : Bool)
    (declared : List String) (store : String → Json → ρ → Decoded ρ)
    (j : Json) (init : ρ) : Decoded ρ :=
  match j with
  | .null => .ok (init, none)
  | .obj members => decodeMembers disallowUnknownFields declared store members init none
  | other => .ok (init, some (typeError other typeName))

section Requests
variable {S V G P : Type} [GoJson S] [GoJson V] [GoJson G] [GoJson P]

/-- The json tags of `CheckRequest`. -/
def checkRequestFields : List String := ["source", "version"]

/-- The json tags of `GetRequest`. -/
def getRequestFields : List String := ["source", "version", "params"]

/-- The json tags of `PutRequest`. -/
def putRequestFields : List String := ["source", "params"]

/-- The name `reflect` prints for a generic type of the package instantiated
with the given type arguments. -/
def instantiatedName (generic : String) (typeArgs : List String) : String :=
  "framework." ++ generic ++ "[" ++ ",".intercalate typeArgs ++ "]"

/-- Storing a value into a field of `CheckRequest`. `Version` is a pointer:
`null` makes it `nil`, any other value is decoded into the pointee
(allocated with the zero value when the pointer is `nil`). -/
def storeCheckRequest (f : String) (v : Json) (r : CheckRequest S V) :
    Decoded (CheckRequest S V) :=
  if f = "source" then
    (GoJson.unmarshal v r.Source).map (fun s => { r with Source := s })
  else
    match v with
    | .null => .ok ({ r with Version := none }, none)
    | other =>
      (GoJson.unmarshal other (r.Version.getD GoJson.zero)).map
        (fun x => { r with Version := some x })

def storeGetRequest (f : String) (v : Json) (r : GetRequest S V G) :
    Decoded (GetRequest S V G) :=
  if f = "source" then
    (GoJson.unmarshal v r.Source).map (fun s => { r with Source := s })
  else if f = "version" then
    (GoJson.unmarshal v r.Version).map (fun x => { r with Version := x })
  else
    (GoJson.unmarshal v r.Params).map (fun p => { r with Params := p })

def storePutRequest (f : String) (v : Json) (r : PutRequest S P) :
    Decoded (PutRequest S P) :=
  if f = "source" then
    (GoJson.unmarshal v r.Source).map (fun s => { r with Source := s })
  else
    (GoJson.unmarshal v r.Params).map (fun p => { r with Params := p })

/-- The statement `var req CheckRequest[S, V]` followed by strict decoding of `j`
into it. -/
def decodeCheckRequest (j : Json) : Except GoError (CheckRequest S V) :=
  finishDecode
    (decodeStruct (instantiatedName "CheckRequest" [GoJson.typeArg S, GoJson.typeArg V])
      true checkRequestFields storeCheckRequest j
      { Source := GoJson.zero, Version := none })

def decodeGetRequest (j : Json) : Except GoError (GetRequest S V G) :=
  finishDecode
    (decodeStruct
      (instantiatedName "GetRequest" [GoJson.typeArg S, GoJson.typeArg V, GoJson.typeArg G])
      true getRequestFields storeGetRequest j
      { Source := GoJson.zero, Version := GoJson.zero, Params := GoJson.zero })

def decodePutRequest (j : Json) : Except GoError (PutRequest S P) :=
  finishDecode
    (decodeStruct (instantiatedName "PutRequest" [GoJson.typeArg S, GoJson.typeArg P])
      true putRequestFields storePutRequest j
      { Source := GoJson.zero, Params := GoJson.zero })

end Requests

/-! ## Encoding of the values `Run` writes -/

/-- All elements are marshalled, the first error ends marshalling. -/
def marshalList {α : Type} [GoJson α] : List α → Except GoError (List Json)
  | [] => .ok []
  | x :: xs =>
    match GoJson.marshal x with
    | .error e => .error e
    | .ok j =>
      match marshalList xs with
      | .error e => .error e
      | .ok js => .ok (j :: js)

/-- The function `json.Marshal` on a slice: "Array and slice values encode as JSON
arrays, except that []byte encodes as a base64-encoded string, and a nil
slice encodes as the null JSON value". -/
def marshalSlice {α : Type} [GoJson α] : GoSlice α → Except GoError Json
  | .nil => .ok .null
  | .mk xs =>
    match (GoJson.bytes : Option (ByteText α)) with
    | some b => .ok (.str (b.encode xs))
    | none => (marshalList xs).map Json.arr

/-- The function `json.Marshal` on `MetadataField`: an object with the members
`name` and `value`, in the order of the struct's fields. -/
def marshalMetadataField (m : MetadataField) : Except GoError Json :=
  .ok (.obj [("name", .str (GoString.toJson m.Name)), ("value", .str (GoString.toJson m.Value))])

/-- A JSON value is stored into a field of type `string`. -/
def unmarshalString (j : Json) (cur : GoString) : Decoded GoString :=
  match j with
  | .str s => .ok (GoString.ofString s, none)
  | .null => .ok (cur, none)
  | other => .ok (cur, some (typeError other "string"))

def storeMetadataField (f : String) (v : Json) (m : MetadataField) : Decoded MetadataField :=
  if f = "name" then (unmarshalString v m.Name).map (fun s => { m with Name := s })
  else (unmarshalString v m.Value).map (fun s => { m with Value := s })

/-- The codec of `MetadataField`. -/
instance metadataFieldCodec : GoJson MetadataField where
  typeName := "framework.MetadataField"
  typeArg := "github.com/jghiloni/custom-resource-type/framework.MetadataField"
  zero := { Name := [], Value := [] }
  unmarshal j cur :=
    decodeStruct "framework.MetadataField" true ["name", "value"] storeMetadataField j cur
  marshal := marshalMetadataField

/-- The function `json.Marshal` on `Response[V]`. -/
def marshalResponse {V : Type} [GoJson V] (resp : Response V) : Except GoError Json :=
  match GoJson.marshal resp.Version with
  | .error e => .error e
  | .ok v =>
    match marshalSlice resp.Metadata with
    | .error e => .error e
    | .ok m => .ok (.obj [("version", v), ("metadata", m)])

/-! ## Decoding what `Run` wrote

What a reader of the output stream obtains when it decodes a document, in the
way `Run` decodes its input (unknown fields disallowed), into a fresh
variable of the type that was encoded. -/

/-- Every element of a JSON array is decoded into a new zero value; the first
saved error is kept. -/
def unmarshalList {α : Type} [GoJson α] : List Json → Decoded (List α)
  | [] => .ok ([], none)
  | j :: js =>
    match GoJson.unmarshal j (GoJson.zero : α) with
    | .error e => .error e
    | .ok (x, s1) =>
      match unmarshalList js with
      | .error e => .error e
      | .ok (xs, s2) => .ok (x :: xs, s1.orElse (fun _ => s2))

/-- Decoding into a nil slice: `null` leaves it nil, an array (an empty one
too) allocates it, and so does base64 text when the elements are bytes. -/
def unmarshalSliceInto {α : Type} [GoJson α] (j : Json) : Decoded (GoSlice α) :=
  match j with
  | .null => .ok (.nil, none)
  | .arr items => (unmarshalList items).map GoSlice.mk
  | .str text =>
    match (GoJson.bytes : Option (ByteText α)) with
    | some b =>
      match b.decode text with
      | .ok xs => .ok (.mk xs, none)
      | .error e => .error e
    | none => .ok (.nil, some (typeError (.str text) ("[]" ++ GoJson.typeName α)))
  | other => .ok (.nil, some (typeError other ("[]" ++ GoJson.typeName α)))

/-- Decoding into a fresh `[]V`. -/
def unmarshalSlice {α : Type} [GoJson α] (j : Json) : Except GoError (GoSlice α) :=
  finishDecode (unmarshalSliceInto j)

def storeResponse {V : Type} [GoJson V] (f : String) (v : Json) (r : Response V) :
    Decoded (Response V) :=
  if f = "version" then (GoJson.unmarshal v r.Version).map (fun x => { r with Version := x })
  else (unmarshalSliceInto v).map (fun m => { r with Metadata := m })

/-- Decoding into a fresh `Response[V]`. -/
def unmarshalResponse {V : Type} [GoJson V] (j : Json) : Except GoError (Response V) :=
  finishDecode
    (decodeStruct (instantiatedName "Response" [GoJson.typeArg V]) true
      ["version", "metadata"] storeResponse j
      { Version := GoJson.zero, Metadata := .nil })

/-- The codec of `V` round-trips: what `Marshal` produces for a value,
`Unmarshal` into a zero value reads back as that value without an error;
and when slices of `V` are written as base64 text, that text decodes to the
bytes it was made from. -/
def RoundTrips (V : Type) [GoJson V] : Prop :=
  (∀ (x : V) (j : Json), GoJson.marshal x = .ok j →
      GoJson.unmarshal j (GoJson.zero : V) = .ok (x, none)) ∧
    (∀ b : ByteText V, GoJson.bytes = some b → ∀ xs, b.decode (b.encode xs) = .ok xs)

/-- Every string of the metadata of a response is valid UTF-8. -/
def Response.ValidText {V : Type} (resp : Response V) : Prop :=
  ∀ m ∈ resp.Metadata.toList, GoString.ValidUTF8 m.Name ∧ GoString.ValidUTF8 m.Value

/-! ## path/filepath -/

def splitAux : List Char → List Char → List (List Char)
  | [], acc => [acc.reverse]
  | c :: cs, acc => if c = '/' then acc.reverse :: splitAux cs [] else splitAux cs (c :: acc)

/-- The elements of a path between its separators (empty ones included). -/
def splitSlash (path : String) : List String := (splitAux path.data []).map String.mk

/-- The function `filepath.IsAbs` on Unix: the path begins with a slash. -/
def isAbs (path : String) : Bool := path.data.head? = some '/'

/-- The element loop of `filepath.Clean`; `out` is the cleaned path so far,
last element first. -/
def cleanAux (rooted : Bool) : List String → List String → List String
  | [], out => out.reverse
  | c :: cs, out =>
    if c = "" ∨ c = "." then cleanAux rooted cs out
    else if c = ".." then
      match out with
      | [] => if rooted then cleanAux rooted cs [] else cleanAux rooted cs [".."]
      | top :: below =>
        if top = ".." then cleanAux rooted cs (".." :: top :: below)
        else cleanAux rooted cs below
    else cleanAux rooted cs (c :: out)

/-- The function `filepath.Clean` on Unix. -/
def filepathClean (path : String) : String :=
  if path = "" then "."
  else
    let out := cleanAux (isAbs path) (splitSlash path) []
    if isAbs path then "/" ++ "/".intercalate out
    else if out = [] then "." else "/".intercalate out

/-- The function `filepath.Join` of two elements. -/
def filepathJoin (a b : String) : String :=
  if a ≠ "" then filepathClean (a ++ "/" ++ b)
  else if b ≠ "" then filepathClean b
  else ""

/-- The function `filepath.Abs` on Unix; `getwd` is the result of `os.Getwd`. -/
def filepathAbs (getwd : Except GoError String) (path : String) : Except GoError String :=
  if isAbs path then .ok (filepathClean path)
  else
    match getwd with
    | .error e => .error e
    | .ok wd => .ok (filepathJoin wd path)

/-! ## The filesystem -/

inductive Node where
  | file
  | dir
  | symlink (target : String)
deriving DecidableEq, Repr

inductive Errno where
  | ENOENT
  | ENOTDIR
  | EEXIST
  | ELOOP
  | EINVAL
deriving DecidableEq, Repr

def Errno.text : Errno → String
  | .ENOENT => "no such file or directory"
  | .ENOTDIR => "not a directory"
  | .EEXIST => "file exists"
  | .ELOOP => "too many levels of symbolic links"
  | .EINVAL => "invalid argument"

/-- The `*fs.PathError` / `*os.LinkError` of a failed call. -/
def Errno.toError (op : String) (e : Errno) : GoError :=
  .new (op ++ ": " ++ e.text)

/-- A filesystem: the node at each physical location (a location is the list
of names below the root; the root itself is a directory and has no entry).
`Run` passes absolute paths only (the results of `filepath.Abs` and three
constants); a relative path is resolved from the root. -/
structure FS where
  nodes : List String → Option Node

/-- The node at a physical location. -/
def FS.lookup (fs : FS) (p : List String) : Option Node :=
  if p = [] then some .dir else fs.nodes p

/-- The filesystem with node `n` placed at location `p`. -/
def FS.insert (fs : FS) (p : List String) (n : Node) : FS :=
  { nodes := fun q => if q = p then some n else fs.nodes q }

/-- The names of a path that path resolution walks: empty names and `.`
stand for the directory itself. -/
def pathComps (path : String) : List String :=
  (splitSlash path).filter (fun c => c ≠ "" ∧ c ≠ ".")

inductive Step where
  | done (location : List String)
  | link (dir : List String) (target : String) (rest : List String)
  | fail (e : Errno)

/-- Path resolution from directory `cur` up to the next symbolic link that has
to be followed. With `nofollow` the last name is not followed and need not
exist (the location it would have is returned). -/
def walkDir (fs : FS) (nofollow : Bool) : List String → List String → Step
  | cur, [] => .done cur
  | cur, c :: rest =>
    if c = ".." then walkDir fs nofollow cur.dropLast rest
    else
      match fs.nodes (cur ++ [c]) with
      | none => if rest.isEmpty && nofollow then .done (cur ++ [c]) else .fail .ENOENT
      | some .dir => walkDir fs nofollow (cur ++ [c]) rest
      | some .file => if rest.isEmpty then .done (cur ++ [c]) else .fail .ENOTDIR
      | some (.symlink t) =>
        if rest.isEmpty && nofollow then .done (cur ++ [c]) else .link cur t rest

/-- Path resolution; `links` is the number of symbolic links that may still
be followed. -/
def resolveFrom (fs : FS) (nofollow : Bool) : Nat → List String → List String →
    Except Errno (List String)
  | links, cur, comps =>
    match walkDir fs nofollow cur comps with
    | .done p => .ok p
    | .fail e => .error e
    | .link dir t rest =>
      match links with
      | 0 => .error .ELOOP
      | n + 1 => resolveFrom fs nofollow n (if isAbs t then [] else dir) (pathComps t ++ rest)

/-- The limit of the kernel on the symbolic links followed in one resolution. -/
def maxSymlinks : Nat := 40

/-- The physical location a path names. -/
def FS.resolve (fs : FS) (nofollow : Bool) (path : String) : Except Errno (List String) :=
  resolveFrom fs nofollow maxSymlinks [] (pathComps path)

/-- The type bits of `fs.FileMode` (permission bits are not modelled). -/
abbrev FileMode := Nat

def ModeDir : FileMode := 2 ^ 31

def ModeSymlink : FileMode := 2 ^ 27

structure FileInfo where
  Mode : FileMode
deriving DecidableEq, Repr

def FileInfo.IsDir (info : FileInfo) : Bool := info.Mode &&& ModeDir != 0

def Node.info : Node → FileInfo
  | .file => { Mode := 0 }
  | .dir => { Mode := ModeDir }
  | .symlink _ => { Mode := ModeSymlink }

/-- The call `os.Lstat`: the final name is not followed. -/
def osLstat (fs : FS) (path : String) : Except Errno FileInfo :=
  match fs.resolve true path with
  | .error e => .error e
  | .ok p =>
    match fs.lookup p with
    | none => .error .ENOENT
    | some n => .ok n.info

/-- The call `os.Stat`: every symbolic link of the path is followed, the final
one included. -/
def osStat (fs : FS) (path : String) : Except Errno FileInfo :=
  match fs.resolve false path with
  | .error e => .error e
  | .ok p =>
    match fs.lookup p with
    | none => .error .ENOENT
    | some n => .ok n.info

/-- The call `os.Readlink`. -/
def osReadlink (fs : FS) (path : String) : Except Errno String :=
  match fs.resolve true path with
  | .error e => .error e
  | .ok p =>
    match fs.lookup p with
    | some (.symlink t) => .ok t
    | some _ => .error .EINVAL
    | none => .error .ENOENT

/-- A new node is made at `path`; the call fails when the location is taken. -/
def createNode (fs : FS) (path : String) (n : Node) : Except Errno FS :=
  match fs.resolve true path with
  | .error e => .error e
  | .ok p =>
    match fs.lookup p with
    | some _ => .error .EEXIST
    | none => .ok (fs.insert p n)

/-- The call `os.Symlink(oldname, newname)`. -/
def osSymlink (fs : FS) (oldname newname : String) : Except Errno FS :=
  createNode fs newname (.symlink oldname)

/-- The call `os.Mkdir`. -/
def osMkdir (fs : FS) (path : String) : Except Errno FS :=
  createNode fs path .dir

/-- The parent that `os.MkdirAll` makes first: trailing separators and the last
element are removed; there is none when nothing but the root is left. -/
def parentDir (path : String) : Option String :=
  let withoutSeps := path.data.reverse.dropWhile (fun c => c = '/')
  let upToSep := withoutSeps.dropWhile (fun c => c ≠ '/')
  if upToSep.length > 1 then some (String.mk (upToSep.drop 1).reverse) else none

/-- The end of `os.MkdirAll`, once the parent has been ensured: `os.Mkdir`, and
when that fails a second look with `os.Lstat` ("double-checking that
directory doesn't exist"). -/
def mkdirLast (fs : FS) (path : String) : FS × Option (String × Errno) :=
  match osMkdir fs path with
  | .ok fs2 => (fs2, none)
  | .error e =>
    match osLstat fs path with
    | .ok dir => if dir.IsDir then (fs, none) else (fs, some (path, e))
    | .error _ => (fs, some (path, e))

/-- The function `os.MkdirAll`; the recursion is on the parent, which is shorter,
so `fuel` of the length of the path is enough. The error names the path that
could not be made. A failure leaves the directories made before it in place. -/
def mkdirAllFuel : Nat → FS → String → FS × Option (String × Errno)
  | 0, fs, path => (fs, some (path, .ELOOP))
  | fuel + 1, fs, path =>
    match osStat fs path with
    | .ok dir => if dir.IsDir then (fs, none) else (fs, some (path, .ENOTDIR))
    | .error _ =>
      let parent :=
        match parentDir path with
        | some dir => mkdirAllFuel fuel fs dir
        | none => (fs, none)
      match parent.2 with
      | some e => (parent.1, some e)
      | none => mkdirLast parent.1 path

def osMkdirAll (fs : FS) (path : String) : FS × Option (String × Errno) :=
  mkdirAllFuel (path.length + 1) fs path

/-! ## The world `Run` acts on -/

/-- One document of the input stream: a JSON value, or text that the decoder
rejects with the given error (a syntax error or a failed read). -/
inductive Chunk where
  | doc (j : Json)
  | malformed (e : GoError)

inductive Verb where
  | check
  | get
  | put
deriving DecidableEq, Repr

/-- The primitives `Run` performs, in the order it performs them. -/
inductive Event where
  | decode
  | write
  | call (v : Verb)
  | stat (path : String)
  | mkdirAll (path : String)
  | symlink (oldname newname : String)
deriving DecidableEq, Repr

/-- An event of the filesystem. -/
def Event.isFs : Event → Bool
  | .stat _ => true
  | .mkdirAll _ => true
  | .symlink _ _ => true
  | _ => false

structure World where
  /-- The documents still to be read from `r.stdin`. -/
  stdin : List Chunk
  /-- The documents written to `r.stdout`, oldest first. -/
  stdout : List Json
  /-- When set, every `Write` of `r.stdout` fails with this error. -/
  stdoutFault : Option GoError
  fs : FS
  /-- The variable `os.Args`. -/
  osArgs : List String
  /-- The result of `os.Getwd`. -/
  getwd : Except GoError String
  trace : List Event

def World.log (w : World) (e : Event) : World := { w with trace := w.trace ++ [e] }

/-- The error `io.EOF`. -/
def ioEOF : GoError := .new "EOF"

/-- The calls `json.NewDecoder(r.stdin)` and `Decode`: the next document is taken
from the stream. -/
def readDocument (w : World) : World × Except GoError Json :=
  match w.stdin with
  | [] => (w.log .decode, .error ioEOF)
  | .malformed e :: rest => ({ w with stdin := rest }.log .decode, .error e)
  | .doc j :: rest => ({ w with stdin := rest }.log .decode, .ok j)

/-- The calls `json.NewEncoder(r.stdout)` and `Encode`: the value is marshalled and,
when that succeeds, written with one `Write`. -/
def writeDocument (w : World) (marshalled : Except GoError Json) : World × Option GoError :=
  match marshalled with
  | .error e => (w, some e)
  | .ok j =>
    match w.stdoutFault with
    | some e => (w.log .write, some e)
    | none => ({ w with stdout := w.stdout ++ [j] }.log .write, none)

/-! ## runner.go -/

/-- The capability set `ResourceType[S, V, G, P]`; a field is `none` for a nil
interface value. (The stream handles are part of the `World`.) -/
structure ResourceType (S V G P : Type) where
  check : Option (Checker S V)
  in_ : Option (Getter S V G)
  out : Option (Putter S V P)

/-- How a call of `Run` ends. -/
inductive Outcome where
  | returned (err : Option GoError)
  | panicked (reason : String)
deriving DecidableEq, Repr

/-- The verb `%v` of `fmt` on a `[]string`. -/
def formatArgs (args : List String) : String := "[" ++ " ".intercalate args ++ "]"

/-- The cases of the `switch binPath` of `Run`. -/
inductive Flow where
  | check
  | get
  | put
  | install
deriving DecidableEq, Repr

/-- The case of `switch binPath` that is taken. -/
def selectFlow (binPath : String) : Flow :=
  if binPath = "/opt/resource/check" then .check
  else if binPath = "/opt/resource/in" then .get
  else if binPath = "/opt/resource/out" then .put
  else .install

/-- The verb a flow serves; the Install flow serves none. -/
def Flow.verb : Flow → Option Verb
  | .check => some .check
  | .get => some .get
  | .put => some .put
  | .install => none

/-- The primitives that belong to a flow: a verb flow reads the input stream,
calls the capability of its own verb and writes the output stream; the
Install flow examines and changes the filesystem. -/
def Event.inFlow (f : Flow) : Event → Bool
  | .decode => f.verb.isSome
  | .write => f.verb.isSome
  | .call v => decide (f.verb = some v)
  | .stat _ => f.verb.isNone
  | .mkdirAll _ => f.verb.isNone
  | .symlink _ _ => f.verb.isNone

/-- The argument list `Run` works on: `os.Args` when it is called without
arguments (`if len(args) == 0 { args = append([]string{}, os.Args...) }`). -/
def effectiveArgs (args : List String) (w : World) : List String :=
  if args.length = 0 then w.osArgs else args

section Run
variable {S V G P : Type} [GoJson S] [GoJson V] [GoJson G] [GoJson P]

/-- The case `"/opt/resource/check"`. -/
def checkFlow (r : ResourceType S V G P) (w : World) : World × Outcome :=
  match r.check with
  | some checker =>
    let w1 := (readDocument w).1
    match (readDocument w).2.bind (fun j => (decodeCheckRequest j : Except GoError (CheckRequest S V))) with
    | .error e => (w1, .returned (some (.wrap "could not decode source" e)))
    | .ok req =>
      match checker req with
      | .error e => (w1.log (.call .check), .returned (some (.wrap "check failed" e)))
      | .ok versions =>
        let written := writeDocument (w1.log (.call .check)) (marshalSlice versions)
        match written.2 with
        | some e => (written.1, .returned (some (.wrap "could not output versions" e)))
        | none => (written.1, .returned none)
  | none => (w, .returned (some (.new "/opt/resource/check not implemented")))

/-- The case `"/opt/resource/in"`. -/
def getFlow (r : ResourceType S V G P) (args : List String) (w : World) : World × Outcome :=
  match r.in_ with
  | some getter =>
    let w1 := (readDocument w).1
    match (readDocument w).2.bind (fun j => (decodeGetRequest j : Except GoError (GetRequest S V G))) with
    | .error e => (w1, .returned (some (.wrap "could not decode source" e)))
    | .ok req =>
      match args.get? 1 with
      | none =>
        (w1, .panicked
          ("runtime error: index out of range [1] with length " ++ toString args.length))
      | some baseDir =>
        match getter baseDir req with
        | .error e => (w1.log (.call .get), .returned (some (.wrap "get failed" e)))
        | .ok response =>
          let written := writeDocument (w1.log (.call .get)) (marshalResponse response)
          match written.2 with
          | some e => (written.1, .returned (some (.wrap "could not output get response" e)))
          | none => (written.1, .returned none)
  | none => (w, .returned (some (.new "/opt/resource/in not implemented")))

/-- The case `"/opt/resource/out"`. -/
def putFlow (r : ResourceType S V G P) (args : List String) (w : World) : World × Outcome :=
  match r.out with
  | some putter =>
    let w1 := (readDocument w).1
    match (readDocument w).2.bind (fun j => (decodePutRequest j : Except GoError (PutRequest S P))) with
    | .error e => (w1, .returned (some (.wrap "could not decode source" e)))
    | .ok req =>
      match args.get? 1 with
      | none =>
        (w1, .panicked
          ("runtime error: index out of range [1] with length " ++ toString args.length))
      | some baseDir =>
        match putter baseDir req with
        | .error e => (w1.log (.call .put), .returned (some (.wrap "get failed" e)))
        | .ok response =>
          let written := writeDocument (w1.log (.call .put)) (marshalResponse response)
          match written.2 with
          | some e => (written.1, .returned (some (.wrap "could not output get response" e)))
          | none => (written.1, .returned none)
  | none => (w, .returned (some (.new "/opt/resource/out not implemented")))

/-- One `if capability != nil { os.Symlink(binPath, entry) }` of the default case:
the world after it, and the error `Run` returns when the link cannot be made. -/
def linkStep (present : Bool) (binPath entry : String) (w : World) : World × Option GoError :=
  if present then
    match osSymlink w.fs binPath entry with
    | .error e =>
      (w.log (.symlink binPath entry),
        some (.wrap ("could not create " ++ entry ++ " link")
          (e.toError ("symlink " ++ binPath ++ " " ++ entry))))
    | .ok fs2 => ({ w with fs := fs2 }.log (.symlink binPath entry), none)
  else (w, none)

/-- The three link steps that end the `default` case, in the order of the
source: check, in, out; the first link that cannot be made ends the run. -/
def makeLinks (r : ResourceType S V G P) (binPath : String) (w1 : World) : World × Outcome :=
  let s1 := linkStep r.check.isSome binPath "/opt/resource/check" w1
  match s1.2 with
  | some e => (s1.1, .returned (some e))
  | none =>
    let s2 := linkStep r.in_.isSome binPath "/opt/resource/in" s1.1
    match s2.2 with
    | some e => (s2.1, .returned (some e))
    | none =>
      let s3 := linkStep r.out.isSome binPath "/opt/resource/out" s2.1
      match s3.2 with
      | some e => (s3.1, .returned (some e))
      | none => (s3.1, .returned none)

/-- The `default` case. -/
def installFlow (r : ResourceType S V G P) (args : List String) (binPath : String)
    (w : World) : World × Outcome :=
  let w0 := w.log (.stat binPath)
  let stat := (osStat w.fs binPath).toOption
  if stat = none ∨ stat.any (fun info => info.Mode &&& ModeSymlink = ModeSymlink) then
    (w0, .returned (some (.new (binPath ++ " must not be a symbolic link"))))
  else if args.length < 2 ∨ args.get? 1 ≠ some "install" then
    (w0, .returned (some (.new
      ("unrecogized arguments " ++ formatArgs args ++ ", only 'install' is allowed"))))
  else
    let made := osMkdirAll w0.fs "/opt/resource"
    let w1 := { w0 with fs := made.1 }.log (.mkdirAll "/opt/resource")
    match made.2 with
    | some e =>
      (w1, .returned (some (.wrap "could not ensure /opt/resource exists"
        (e.2.toError ("mkdir " ++ e.1)))))
    | none => makeLinks r binPath w1

/-- The body of the case of `switch binPath` that `flow` names. -/
def runFlow (r : ResourceType S V G P) (args : List String) (binPath : String) (w : World) :
    Flow → World × Outcome
  | .check => checkFlow r w
  | .get => getFlow r args w
  | .put => putFlow r args w
  | .install => installFlow r args binPath w

/-- The method `ResourceType.Run`. -/
def Run (r : ResourceType S V G P) (args : List String) (w : World) : World × Outcome :=
  let args := effectiveArgs args w
  match args with
  | [] => (w, .panicked "runtime error: index out of range [0] with length 0")
  | arg0 :: _ =>
    match filepathAbs w.getwd arg0 with
    | .error e => (w, .returned (some (.wrap "could not determine path to binary" e)))
    | .ok binPath => runFlow r args binPath w (selectFlow binPath)

end Run

/-! ## Sample data

Concrete type arguments, capability sets, filesystems and worlds on which
the definitions above are evaluated. -/

/-- The codec of `json.RawMessage`: the document itself, kept as it is. -/
instance rawMessage : GoJson Json where
  typeName := "json.RawMessage"
  typeArg := "encoding/json.RawMessage"
  zero := .null
  unmarshal j _ := .ok (j, none)
  marshal j := .ok j

/-- A version type of a plugin whose own marshalling method refuses:
`type Sealed struct{}` with
`func (Sealed) MarshalJSON() ([]byte, error) { return nil, errors.New("sealed") }`. -/
inductive Sealed where
  | mk
deriving DecidableEq, Repr

/-- The codec of `Sealed`: decoded as the struct without fields that it is,
never marshalled (`encoding/json` wraps the error of the method in a
`MarshalerError`). -/
instance sealedCodec : GoJson Sealed where
  typeName := "main.Sealed"
  typeArg := "main.Sealed"
  zero := .mk
  unmarshal j cur := decodeStruct "main.Sealed" true [] (fun _ _ r => .ok (r, none)) j cur
  marshal _ :=
    .error (.wrap "json: error calling MarshalJSON for type main.Sealed" (.new "sealed"))

/-- A filesystem with the plugin binary `/usr/bin/plugin`, the directory link
`/bin -> usr/bin` and the link `/usr/bin/alias -> /usr/bin/plugin`. -/
def sampleFS : FS :=
  { nodes := fun p =>
      if p = ["usr"] then some .dir
      else if p = ["usr", "bin"] then some .dir
      else if p = ["usr", "bin", "plugin"] then some .file
      else if p = ["bin"] then some (.symlink "usr/bin")
      else if p = ["usr", "bin", "alias"] then some (.symlink "/usr/bin/plugin")
      else none }

/-- The request `{"source":{"x":1},"version":null}`. -/
def sampleRequest : Json := .obj [("source", .obj [("x", .num 1)]), ("version", .null)]

/-- The Put request `{"source":{"x":1},"params":null}`. -/
def samplePutRequest : Json := .obj [("source", .obj [("x", .num 1)]), ("params", .null)]

/-- The versions `[{"y":1},{"y":2}]`. -/
def sampleVersions : List Json := [.obj [("y", .num 1)], .obj [("y", .num 2)]]

/-- A world whose input stream holds the documents `docs`. -/
def sampleWorld (docs : List Json) : World :=
  { stdin := docs.map Chunk.doc
    stdout := []
    stdoutFault := none
    fs := sampleFS
    osArgs := ["/usr/bin/plugin"]
    getwd := .ok "/"
    trace := [] }

/-- The error of the failing sample capabilities. -/
def sampleFailure : GoError := .new "resource unreachable"

/-- A plugin with all three capabilities: Check returns `sampleVersions`, Get
returns the requested version with one metadata field, Put fails. -/
def sampleAll : ResourceType Json Json Json Json :=
  { check := some (fun _ => .ok (.mk sampleVersions))
    in_ := some (fun dir req =>
      .ok { Version := req.Version,
            Metadata := .mk [{ Name := GoString.ofString "dir",
                               Value := GoString.ofString dir }] })
    out := some (fun _ _ => .error sampleFailure) }

/-- A plugin with the Getter only. -/
def sampleGetOnly : ResourceType Json Json Json Json :=
  { check := none
    in_ := some (fun _ req => .ok { Version := req.Version, Metadata := .nil })
    out := none }

/-- A plugin whose Checker answers with the source of the request as the only
version. -/
def sampleEcho : ResourceType Json Json Json Json :=
  { check := some (fun req => .ok (.mk [req.Source]))
    in_ := none
    out := none }

/-- A plugin whose Checker finds nothing and returns a slice it never
allocated (`return nil, nil`). -/
def sampleNilChecker : ResourceType Json Json Json Json :=
  { check := some (fun _ => .ok .nil)
    in_ := none
    out := none }

/-- A plugin whose Checker finds nothing and returns an allocated, empty
slice (`return []V{}, nil`). -/
def sampleEmptyChecker : ResourceType Json Json Json Json :=
  { check := some (fun _ => .ok (.mk []))
    in_ := none
    out := none }

/-- A plugin with `Sealed` versions whose Checker returns one. -/
def sampleSealed : ResourceType Json Sealed Json Json :=
  { check := some (fun _ => .ok (.mk [.mk]))
    in_ := none
    out := none }

/-- A plugin whose Getter annotates the version with a metadata field whose
name is the single byte `0xff`, which is not valid UTF-8. -/
def sampleBadText : ResourceType Json Json Json Json :=
  { check := none
    in_ := some (fun _ req =>
      .ok { Version := req.Version,
            Metadata := .mk [{ Name := [.invalid ⟨255, by decide⟩],
                               Value := GoString.ofString "v" }] })
    out := none }

/-- The error of a sample output stream that cannot be written to. -/
def sampleBrokenPipe : GoError := .new "write /dev/stdout: broken pipe"

/-- The sample world after the Getter-only plugin has installed itself:
`/opt/resource/in` is there. -/
def sampleInstalledWorld : World :=
  { sampleWorld [] with
    fs := (Run sampleGetOnly ["/usr/bin/plugin", "install"] (sampleWorld [])).1.fs }

/-! ## Predicates on filesystems -/

/-- Location `cur` and everything above it are directories. -/
def FS.Valid (fs : FS) (cur : List String) : Prop :=
  ∀ q, q <+: cur → fs.lookup q = some .dir

/-- What path resolution can end at: a directory all of whose ancestors are
directories, or a name in such a directory; the name is that of a file
unless resolution was asked not to follow the last name (`nofollow`), in
which case it may be anything or nothing. -/
def FS.Reached (fs : FS) (nofollow : Bool) (p : List String) : Prop :=
  fs.Valid p ∨
    ∃ parent c, p = parent ++ [c] ∧ fs.Valid parent ∧ (fs.nodes p = some .file ∨ nofollow = true)

/-- Filesystem `fs2` has every node of `fs`. -/
def FS.le (fs fs2 : FS) : Prop :=
  ∀ q n, fs.nodes q = some n → fs2.nodes q = some n

/-- A well-formed filesystem: whatever has a node lies in a directory. -/
def FS.WF (fs : FS) : Prop :=
  ∀ q c, fs.nodes (q ++ [c]) ≠ none → fs.lookup q = some .dir

/-- Path `comps` leads (every link followed) to location `D`, a directory. -/
def FS.DirAt (fs : FS) (comps D : List String) : Prop :=
  resolveFrom fs false maxSymlinks [] comps = .ok D ∧ fs.lookup D = some .dir

/-- Filesystem `fs1` is `fs` with the directory at `comps` ensured: the path
leads to the directory `D`, every node of `fs` is kept, and whatever is new
is `D` or above it, at a location that had no node. -/
def FS.Ensured (fs fs1 : FS) (comps D : List String) : Prop :=
  fs1.DirAt comps D ∧ fs.le fs1 ∧ ∀ q, fs1.nodes q ≠ fs.nodes q → q <+: D ∧ fs.lookup q = none

/-- The filesystem after one `if capability != nil { os.Symlink(binPath, entry) }`
whose link, when made, is placed at location `loc`. -/
def linkFS (present : Bool) (fs : FS) (loc : List String) (binPath : String) : FS :=
  if present then fs.insert loc (.symlink binPath) else fs

/-! ## The link steps, as the specification words them

"For each capability present (Check/Get/Put), create a symbolic link from the
corresponding well-known entry-point path to the resolved binary path";
a failure is fatal. -/

/-- The well-known entry point of a name. -/
def entryPoint (name : String) : String := "/opt/resource/" ++ name

/-- The names of the entry points of the capabilities present, in the order
check, in, out. -/
def plannedNames {S V G P : Type} (r : ResourceType S V G P) : List String :=
  (if r.check.isSome then ["check"] else []) ++
    (if r.in_.isSome then ["in"] else []) ++
    (if r.out.isSome then ["out"] else [])

/-- The links are made one after the other; the first that cannot be made ends
the sequence with its error. -/
def linkAll (binPath : String) : List String → World → World × Option GoError
  | [], w => (w, none)
  | name :: more, w =>
    let s := linkStep true binPath (entryPoint name) w
    match s.2 with
    | some e => (s.1, some e)
    | none => linkAll binPath more s.1

/-- The world in which the link steps of the Install flow start: the binary has
been examined and `/opt/resource` ensured, which made the filesystem `fs1`. -/
def afterMkdirAll (w : World) (binPath : String) (fs1 : FS) : World :=
  { w.log (.stat binPath) with fs := fs1 }.log (.mkdirAll "/opt/resource")

/-! ## What a run adds to the trace -/

/-- World `w2` continues `w`: its trace is the trace of `w` followed by events
that all satisfy `p`. -/
def Extends (p : Event → Bool) (w w2 : World) : Prop :=
  ∃ evs, w2.trace = w.trace ++ evs ∧ ∀ e ∈ evs, p e = true

/-- No primitive at all was performed between `w` and `w2`. -/
def Untouched (w w2 : World) : Prop :=
  w2.stdin = w.stdin ∧ w2.stdout = w.stdout ∧ w2.fs = w.fs ∧ w2.trace = w.trace

set_option linter.unusedSectionVars false

section Lemmas
variable {S V G P : Type} [GoJson S] [GoJson V] [GoJson G] [GoJson P]

theorem Run_eq_runFlow (r : ResourceType S V G P) (args : List String) (w : World)
    (a0 : String) (rest : List String) (p : String)
    (hargs : effectiveArgs args w = a0 :: rest) (habs : filepathAbs w.getwd a0 = .ok p) :
    Run r args w = runFlow r (a0 :: rest) p w (selectFlow p) := by
  simp [Run, hargs, habs]

theorem selectFlow_check (p : String) : selectFlow p = .check ↔ p = "/opt/resource/check" := by
  unfold selectFlow
  split_ifs with h1 h2 h3 <;> simp [h1]

theorem selectFlow_get (p : String) : selectFlow p = .get ↔ p = "/opt/resource/in" := by
  unfold selectFlow
  split_ifs with h1 h2 h3
  · subst h1; simp
  · simp [h2]
  · simp [h2]
  · simp [h2]

theorem selectFlow_put (p : String) : selectFlow p = .put ↔ p = "/opt/resource/out" := by
  unfold selectFlow
  split_ifs with h1 h2 h3
  · subst h1; simp
  · subst h2; simp
  · simp [h3]
  · simp [h3]

theorem selectFlow_install (p : String) :
    selectFlow p = .install ↔
      p ≠ "/opt/resource/check" ∧ p ≠ "/opt/resource/in" ∧ p ≠ "/opt/resource/out" := by
  unfold selectFlow
  split_ifs with h1 h2 h3
  · simp [h1]
  · simp [h2]
  · simp [h3]
  · simp [h1, h2, h3]

theorem readDocument_frame (w : World) :
    (readDocument w).1.fs = w.fs ∧ (readDocument w).1.stdout = w.stdout ∧
      (readDocument w).1.stdoutFault = w.stdoutFault ∧
      (readDocument w).1.trace = w.trace ++ [.decode] := by
  unfold readDocument
  split <;> simp [World.log]

theorem writeDocument_frame (q : Event → Bool) (hq : q .write = true) (w : World)
    (m : Except GoError Json) :
    (writeDocument w m).1.fs = w.fs ∧ Extends q w (writeDocument w m).1 := by
  unfold writeDocument Extends
  split
  · simp
  · split <;> simp [World.log, hq]

theorem Extends.refl (p : Event → Bool) (w : World) : Extends p w w :=
  ⟨[], by simp, by simp⟩

theorem Extends.trans {p : Event → Bool} {w w1 w2 : World}
    (h1 : Extends p w w1) (h2 : Extends p w1 w2) : Extends p w w2 := by
  obtain ⟨e1, t1, p1⟩ := h1
  obtain ⟨e2, t2, p2⟩ := h2
  refine ⟨e1 ++ e2, by simp [t2, t1], ?_⟩
  intro e he
  rcases List.mem_append.mp he with h | h
  · exact p1 e h
  · exact p2 e h

theorem Extends.log {p : Event → Bool} (w : World) (e : Event) (he : p e = true) :
    Extends p w (w.log e) :=
  ⟨[e], rfl, by simpa using he⟩

theorem Extends.weaken {p q : Event → Bool} {w w2 : World}
    (hpq : ∀ e, p e = true → q e = true) (h : Extends p w w2) : Extends q w w2 := by
  obtain ⟨evs, ht, hp⟩ := h
  exact ⟨evs, ht, fun e he => hpq e (hp e he)⟩

theorem readDocument_extends (q : Event → Bool) (hq : q .decode = true) (w : World) :
    Extends q w (readDocument w).1 :=
  ⟨[.decode], (readDocument_frame w).2.2.2, by simpa using hq⟩

theorem checkFlow_frame (r : ResourceType S V G P) (w : World) :
    (checkFlow r w).1.fs = w.fs ∧ Extends (Event.inFlow .check) w (checkFlow r w).1 := by
  have hr := readDocument_frame w
  have he := readDocument_extends (Event.inFlow .check) rfl w
  have hl := Extends.log (p := Event.inFlow .check) (readDocument w).1 (.call .check) rfl
  unfold checkFlow
  split
  · split
    · exact ⟨hr.1, he⟩
    · split
      · exact ⟨hr.1, he.trans hl⟩
      · have hw := writeDocument_frame (Event.inFlow .check) rfl
          ((readDocument w).1.log (.call .check)) (marshalSlice ‹GoSlice V›)
        dsimp only
        split <;> exact ⟨hw.1.trans hr.1, (he.trans hl).trans hw.2⟩
  · exact ⟨rfl, Extends.refl _ w⟩

theorem getFlow_frame (r : ResourceType S V G P) (args : List String) (w : World) :
    (getFlow r args w).1.fs = w.fs ∧ Extends (Event.inFlow .get) w (getFlow r args w).1 := by
  have hr := readDocument_frame w
  have he := readDocument_extends (Event.inFlow .get) rfl w
  have hl := Extends.log (p := Event.inFlow .get) (readDocument w).1 (.call .get) rfl
  unfold getFlow
  split
  · split
    · exact ⟨hr.1, he⟩
    · split
      · exact ⟨hr.1, he⟩
      · split
        · exact ⟨hr.1, he.trans hl⟩
        · have hw := writeDocument_frame (Event.inFlow .get) rfl
            ((readDocument w).1.log (.call .get)) (marshalResponse ‹Response V›)
          dsimp only
          split <;> exact ⟨hw.1.trans hr.1, (he.trans hl).trans hw.2⟩
  · exact ⟨rfl, Extends.refl _ w⟩

theorem putFlow_frame (r : ResourceType S V G P) (args : List String) (w : World) :
    (putFlow r args w).1.fs = w.fs ∧ Extends (Event.inFlow .put) w (putFlow r args w).1 := by
  have hr := readDocument_frame w
  have he := readDocument_extends (Event.inFlow .put) rfl w
  have hl := Extends.log (p := Event.inFlow .put) (readDocument w).1 (.call .put) rfl
  unfold putFlow
  split
  · split
    · exact ⟨hr.1, he⟩
    · split
      · exact ⟨hr.1, he⟩
      · split
        · exact ⟨hr.1, he.trans hl⟩
        · have hw := writeDocument_frame (Event.inFlow .put) rfl
            ((readDocument w).1.log (.call .put)) (marshalResponse ‹Response V›)
          dsimp only
          split <;> exact ⟨hw.1.trans hr.1, (he.trans hl).trans hw.2⟩
  · exact ⟨rfl, Extends.refl _ w⟩

theorem linkStep_frame (present : Bool) (binPath entry : String) (w : World) :
    (linkStep present binPath entry w).1.stdin = w.stdin ∧
      (linkStep present binPath entry w).1.stdout = w.stdout ∧
      Extends Event.isFs w (linkStep present binPath entry w).1 := by
  unfold linkStep
  split
  · split
    · exact ⟨rfl, rfl, Extends.log w _ rfl⟩
    · exact ⟨rfl, rfl, ⟨[.symlink binPath entry], rfl, by simp [Event.isFs]⟩⟩
  · exact ⟨rfl, rfl, Extends.refl _ w⟩

theorem makeLinks_frame (r : ResourceType S V G P) (binPath : String) (w1 : World) :
    (makeLinks r binPath w1).1.stdin = w1.stdin ∧
      (makeLinks r binPath w1).1.stdout = w1.stdout ∧
      Extends Event.isFs w1 (makeLinks r binPath w1).1 := by
  have l1 := linkStep_frame r.check.isSome binPath "/opt/resource/check" w1
  have l2 := linkStep_frame r.in_.isSome binPath "/opt/resource/in"
    (linkStep r.check.isSome binPath "/opt/resource/check" w1).1
  have l3 := linkStep_frame r.out.isSome binPath "/opt/resource/out"
    (linkStep r.in_.isSome binPath "/opt/resource/in"
      (linkStep r.check.isSome binPath "/opt/resource/check" w1).1).1
  have e2 := l1.2.2.trans l2.2.2
  have e3 := e2.trans l3.2.2
  unfold makeLinks
  dsimp only
  split
  · exact l1
  · split
    · exact ⟨l2.1.trans l1.1, l2.2.1.trans l1.2.1, e2⟩
    · split
      · exact ⟨l3.1.trans (l2.1.trans l1.1), l3.2.1.trans (l2.2.1.trans l1.2.1), e3⟩
      · exact ⟨l3.1.trans (l2.1.trans l1.1), l3.2.1.trans (l2.2.1.trans l1.2.1), e3⟩

theorem installFlow_after_stat (r : ResourceType S V G P) (args : List String)
    (binPath : String) (w : World) :
    (installFlow r args binPath w).1.stdin = w.stdin ∧
      (installFlow r args binPath w).1.stdout = w.stdout ∧
      Extends Event.isFs (w.log (.stat binPath)) (installFlow r args binPath w).1 := by
  have h0 : Extends Event.isFs (w.log (.stat binPath)) (w.log (.stat binPath)) :=
    Extends.refl _ _
  have h1 : Extends Event.isFs (w.log (.stat binPath))
      ({ w.log (.stat binPath) with
          fs := (osMkdirAll (w.log (.stat binPath)).fs "/opt/resource").1 }.log
        (.mkdirAll "/opt/resource")) :=
    ⟨[.mkdirAll "/opt/resource"], rfl, by simp [Event.isFs]⟩
  unfold installFlow
  dsimp only
  split_ifs
  · exact ⟨rfl, rfl, h0⟩
  · exact ⟨rfl, rfl, h0⟩
  · split
    · exact ⟨rfl, rfl, h1⟩
    · have hm := makeLinks_frame r binPath
        ({ w.log (.stat binPath) with
            fs := (osMkdirAll (w.log (.stat binPath)).fs "/opt/resource").1 }.log
          (.mkdirAll "/opt/resource"))
      exact ⟨hm.1, hm.2.1, h1.trans hm.2.2⟩

theorem installFlow_frame (r : ResourceType S V G P) (args : List String) (binPath : String)
    (w : World) :
    (installFlow r args binPath w).1.stdin = w.stdin ∧
      (installFlow r args binPath w).1.stdout = w.stdout ∧
      Extends Event.isFs w (installFlow r args binPath w).1 := by
  obtain ⟨h1, h2, h3⟩ := installFlow_after_stat r args binPath w
  exact ⟨h1, h2, (Extends.log w _ rfl).trans h3⟩

/-- The Install flow begins with the `os.Stat` of the binary path. -/
theorem installFlow_stats (r : ResourceType S V G P) (args : List String) (binPath : String)
    (w : World) :
    ∃ more, (installFlow r args binPath w).1.trace = w.trace ++ .stat binPath :: more := by
  obtain ⟨more, ht, -⟩ := (installFlow_after_stat r args binPath w).2.2
  exact ⟨more, by rw [ht]; simp [World.log]⟩

theorem Event.inFlow_verb (f : Flow) (hf : f ≠ .install) (e : Event)
    (h : Event.inFlow f e = true) : (!e.isFs) = true := by
  cases f <;> cases e <;> simp_all [Event.inFlow, Flow.verb, Event.isFs]

theorem Event.inFlow_install (e : Event) : Event.inFlow .install e = e.isFs := by
  cases e <;> rfl

/-! ### Strict decoding -/

theorem matchField_eq_none {declared : List String} {key : String}
    (h : ∀ f ∈ declared, foldName f ≠ foldName key) : matchField declared key = none := by
  have h1 : declared.find? (fun f => decide (f = key)) = none := by
    rw [List.find?_eq_none]
    intro f hf
    have := h f hf
    simp only [decide_eq_true_eq]
    rintro rfl
    exact this rfl
  have h2 : declared.find? (fun f => decide (foldName f = foldName key)) = none := by
    rw [List.find?_eq_none]
    intro f hf
    simpa using h f hf
  simp [matchField, h1, h2]

theorem decodeMembers_saved {ρ : Type} (declared : List String)
    (store : String → Json → ρ → Decoded ρ) (members : List (String × Json)) :
    ∀ (r : ρ) (e : GoError),
      ∃ e2, finishDecode (decodeMembers true declared store members r (some e)) =
        .error e2 := by
  induction members with
  | nil => intro r e; exact ⟨e, rfl⟩
  | cons m rest ih =>
    intro r e
    obtain ⟨key, v⟩ := m
    unfold decodeMembers
    split
    · simpa using ih r e
    · split
      · exact ⟨_, rfl⟩
      · simpa using ih _ e

/-- With `DisallowUnknownFields`, an object with a key that matches no
declared field is never decoded without an error. -/
theorem decodeMembers_unknown {ρ : Type} (declared : List String)
    (store : String → Json → ρ → Decoded ρ) (members : List (String × Json))
    (key : String) (v : Json) (hmem : (key, v) ∈ members)
    (hkey : matchField declared key = none) :
    ∀ (r : ρ) (saved : Option GoError),
      ∃ e, finishDecode (decodeMembers true declared store members r saved) = .error e := by
  induction members with
  | nil => simp at hmem
  | cons m rest ih =>
    intro r saved
    obtain ⟨k2, v2⟩ := m
    unfold decodeMembers
    split
    · rename_i hnone
      cases saved with
      | none => simpa using decodeMembers_saved declared store rest r (unknownFieldError k2)
      | some e => simpa using decodeMembers_saved declared store rest r e
    · rename_i f hsome
      have hne : (key, v) ≠ (k2, v2) := by
        rintro h
        rw [Prod.mk.injEq] at h
        rw [← h.1, hkey] at hsome
        exact Option.noConfusion hsome
      have hrest : (key, v) ∈ rest := by
        rcases List.mem_cons.mp hmem with h | h
        · exact absurd h hne
        · exact h
      split
      · exact ⟨_, rfl⟩
      · exact ih hrest _ _

theorem readDocument_doc (w : World) (j : Json) (tail : List Chunk)
    (h : w.stdin = .doc j :: tail) :
    readDocument w = ({ w with stdin := tail, trace := w.trace ++ [.decode] }, .ok j) := by
  simp [readDocument, h, World.log]

theorem writeDocument_trace (w : World) (m : Except GoError Json) :
    ∃ more, (writeDocument w m).1.trace = w.trace ++ more := by
  obtain ⟨more, ht, -⟩ := (writeDocument_frame (fun _ => true) rfl w m).2
  exact ⟨more, ht⟩

/-- With the Checker present and a request that decodes, the Check flow reads
the request and calls the Checker. -/
theorem checkFlow_calls (r : ResourceType S V G P) (w : World) (c : Checker S V)
    (j : Json) (tail : List Chunk) (req : CheckRequest S V)
    (hc : r.check = some c) (hin : w.stdin = .doc j :: tail)
    (hdec : decodeCheckRequest j = .ok req) :
    ∃ more, (checkFlow r w).1.trace = w.trace ++ .decode :: .call .check :: more := by
  have hread := readDocument_doc w j tail hin
  unfold checkFlow
  simp only [hc, hread, Except.bind, hdec]
  cases c req with
  | error e => exact ⟨[], by simp [World.log]⟩
  | ok versions =>
    obtain ⟨more, hm⟩ := writeDocument_trace
      (World.log { w with stdin := tail, trace := w.trace ++ [.decode] } (.call .check))
      (marshalSlice versions)
    refine ⟨more, ?_⟩
    dsimp only
    split <;> (rw [hm]; simp [World.log])

theorem getFlow_calls (r : ResourceType S V G P) (args : List String) (w : World)
    (g : Getter S V G) (j : Json) (tail : List Chunk) (req : GetRequest S V G) (dir : String)
    (hc : r.in_ = some g) (hin : w.stdin = .doc j :: tail)
    (hdec : decodeGetRequest j = .ok req) (hdir : args.get? 1 = some dir) :
    ∃ more, (getFlow r args w).1.trace = w.trace ++ .decode :: .call .get :: more := by
  have hread := readDocument_doc w j tail hin
  unfold getFlow
  simp only [hc, hread, Except.bind, hdec, hdir]
  cases g dir req with
  | error e => exact ⟨[], by simp [World.log]⟩
  | ok response =>
    obtain ⟨more, hm⟩ := writeDocument_trace
      (World.log { w with stdin := tail, trace := w.trace ++ [.decode] } (.call .get))
      (marshalResponse response)
    refine ⟨more, ?_⟩
    dsimp only
    split <;> (rw [hm]; simp [World.log])

theorem putFlow_calls (r : ResourceType S V G P) (args : List String) (w : World)
    (u : Putter S V P) (j : Json) (tail : List Chunk) (req : PutRequest S P) (dir : String)
    (hc : r.out = some u) (hin : w.stdin = .doc j :: tail)
    (hdec : decodePutRequest j = .ok req) (hdir : args.get? 1 = some dir) :
    ∃ more, (putFlow r args w).1.trace = w.trace ++ .decode :: .call .put :: more := by
  have hread := readDocument_doc w j tail hin
  unfold putFlow
  simp only [hc, hread, Except.bind, hdec, hdir]
  cases u dir req with
  | error e => exact ⟨[], by simp [World.log]⟩
  | ok response =>
    obtain ⟨more, hm⟩ := writeDocument_trace
      (World.log { w with stdin := tail, trace := w.trace ++ [.decode] } (.call .put))
      (marshalResponse response)
    refine ⟨more, ?_⟩
    dsimp only
    split <;> (rw [hm]; simp [World.log])

/-- The primitives of a run are those of the flow of the resolved path. -/
theorem Run_inFlow (r : ResourceType S V G P) (args : List String) (w : World)
    (a0 : String) (rest : List String) (p : String)
    (hargs : effectiveArgs args w = a0 :: rest) (habs : filepathAbs w.getwd a0 = .ok p) :
    Extends (Event.inFlow (selectFlow p)) w (Run r args w).1 := by
  rw [Run_eq_runFlow r args w a0 rest p hargs habs]
  cases selectFlow p with
  | check => exact (checkFlow_frame r w).2
  | get => exact (getFlow_frame r (a0 :: rest) w).2
  | put => exact (putFlow_frame r (a0 :: rest) w).2
  | install =>
    exact Extends.weaken (fun e he => by rw [Event.inFlow_install]; exact he)
      (installFlow_frame r (a0 :: rest) p w).2.2

/-! ### Round trips -/

theorem unmarshalList_marshalList {α : Type} [GoJson α] :
    ∀ (xs : List α) (js : List Json),
      (∀ x ∈ xs, ∀ j, GoJson.marshal x = .ok j →
        GoJson.unmarshal j (GoJson.zero : α) = .ok (x, none)) →
      marshalList xs = .ok js → unmarshalList js = .ok (xs, none) := by
  intro xs
  induction xs with
  | nil =>
    intro js _ h
    simp only [marshalList, Except.ok.injEq] at h
    subst h
    rfl
  | cons x xs ih =>
    intro js hel h
    unfold marshalList at h
    split at h
    · exact Except.noConfusion h
    · rename_i j hj
      split at h
      · exact Except.noConfusion h
      · rename_i js2 hjs
        simp only [Except.ok.injEq] at h
        subst h
        have h1 := hel x (List.mem_cons_self x xs) j hj
        have h2 := ih js2 (fun y hy => hel y (List.mem_cons_of_mem x hy)) hjs
        simp [unmarshalList, h1, h2]

theorem unmarshalSliceInto_marshalSlice {α : Type} [GoJson α] (xs : GoSlice α) (j : Json)
    (hel : ∀ x ∈ xs.toList, ∀ j, GoJson.marshal x = .ok j →
      GoJson.unmarshal j (GoJson.zero : α) = .ok (x, none))
    (hbytes : ∀ b : ByteText α, GoJson.bytes = some b → ∀ ys, b.decode (b.encode ys) = .ok ys)
    (h : marshalSlice xs = .ok j) : unmarshalSliceInto j = .ok (xs, none) := by
  cases xs with
  | nil =>
    simp only [marshalSlice, Except.ok.injEq] at h
    subst h
    rfl
  | mk elems =>
    unfold marshalSlice at h
    cases hb : (GoJson.bytes : Option (ByteText α)) with
    | some b =>
      simp only [hb, Except.ok.injEq] at h
      subst h
      simp [unmarshalSliceInto, hb, hbytes b hb elems]
    | none =>
      simp only [hb] at h
      cases hm : marshalList elems with
      | error e => simp [hm, Except.map] at h
      | ok js =>
        simp only [hm, Except.map, Except.ok.injEq] at h
        subst h
        have := unmarshalList_marshalList elems js hel hm
        simp [unmarshalSliceInto, this, Decoded.map, Except.map]

theorem unmarshalSlice_marshalSlice {α : Type} [GoJson α] (hrt : RoundTrips α)
    (xs : GoSlice α) (j : Json) (h : marshalSlice xs = .ok j) :
    unmarshalSlice j = .ok xs := by
  unfold unmarshalSlice
  rw [unmarshalSliceInto_marshalSlice xs j (fun x _ j hj => hrt.1 x j hj) hrt.2 h]
  rfl

theorem GoString.ofString_toJson (s : GoString) (h : GoString.ValidUTF8 s) :
    GoString.ofString (GoString.toJson s) = s := by
  unfold GoString.ofString GoString.toJson
  simp only [List.map_map]
  induction s with
  | nil => rfl
  | cons g rest ih =>
    obtain ⟨c, hc⟩ := h g (List.mem_cons_self g rest)
    subst hc
    simp only [List.map_cons, Function.comp_apply, List.cons.injEq, true_and]
    exact ih (fun g hg => h g (List.mem_cons_of_mem _ hg))

theorem metadataField_roundTrip (m : MetadataField)
    (hv : GoString.ValidUTF8 m.Name ∧ GoString.ValidUTF8 m.Value) (j : Json)
    (h : GoJson.marshal m = .ok j) :
    GoJson.unmarshal j (GoJson.zero : MetadataField) = .ok (m, none) := by
  obtain ⟨n, v⟩ := m
  simp only [GoJson.marshal, marshalMetadataField, Except.ok.injEq] at h
  subst h
  simp [GoJson.unmarshal, GoJson.zero, decodeStruct, decodeMembers, matchField,
    storeMetadataField, unmarshalString, Decoded.map, Except.map,
    GoString.ofString_toJson n hv.1, GoString.ofString_toJson v hv.2]

theorem unmarshalResponse_marshalResponse (hrt : RoundTrips V) (resp : Response V)
    (hv : resp.ValidText) (j : Json)
    (h : marshalResponse resp = .ok j) : unmarshalResponse j = .ok resp := by
  obtain ⟨ver, meta⟩ := resp
  unfold marshalResponse at h
  split at h
  · exact Except.noConfusion h
  · rename_i jv hjv
    split at h
    · exact Except.noConfusion h
    · rename_i jm hm
      simp only [Except.ok.injEq] at h
      subst h
      have h1 := hrt.1 ver jv hjv
      have h2 : unmarshalSliceInto jm = .ok (meta, none) :=
        unmarshalSliceInto_marshalSlice meta jm
          (fun m hmem j hj => metadataField_roundTrip m (hv m hmem) j hj)
          (fun b hb => by simp [GoJson.bytes] at hb) hm
      simp [unmarshalResponse, decodeStruct, decodeMembers, matchField, storeResponse,
        h1, h2, Decoded.map, Except.map, finishDecode]

/-! ### Path resolution -/

theorem FS.lookup_snoc (fs : FS) (q : List String) (c : String) :
    fs.lookup (q ++ [c]) = fs.nodes (q ++ [c]) := by
  simp [FS.lookup]

theorem FS.valid_nil (fs : FS) : fs.Valid [] := by
  intro q hq
  rw [List.prefix_nil] at hq
  subst hq
  rfl

theorem FS.valid_snoc {fs : FS} {cur : List String} {c : String}
    (hv : fs.Valid cur) (hd : fs.nodes (cur ++ [c]) = some .dir) : fs.Valid (cur ++ [c]) := by
  intro q hq
  rcases List.prefix_concat_iff.mp hq with h | h
  · subst h
    rw [FS.lookup_snoc]
    exact hd
  · exact hv q h

theorem FS.valid_dropLast {fs : FS} {cur : List String} (hv : fs.Valid cur) :
    fs.Valid cur.dropLast :=
  fun q hq => hv q (hq.trans (List.dropLast_prefix cur))

theorem FS.valid_lookup {fs : FS} {cur : List String} (hv : fs.Valid cur) :
    fs.lookup cur = some .dir :=
  hv cur (List.prefix_refl cur)

theorem walkDir_reached (fs : FS) (nf : Bool) (comps : List String) :
    ∀ (cur p : List String), fs.Valid cur → walkDir fs nf cur comps = .done p →
      fs.Reached nf p := by
  induction comps with
  | nil =>
    intro cur p hv h
    simp only [walkDir, Step.done.injEq] at h
    subst h
    exact Or.inl hv
  | cons c rest ih =>
    intro cur p hv h
    rw [walkDir] at h
    by_cases hdd : c = ".."
    · rw [if_pos hdd] at h
      exact ih _ p (FS.valid_dropLast hv) h
    · rw [if_neg hdd] at h
      by_cases hlast : (rest.isEmpty && nf) = true
      · have hnf : nf = true := by
          simp only [Bool.and_eq_true] at hlast
          exact hlast.2
        cases hn : fs.nodes (cur ++ [c]) with
        | none =>
          simp only [hn, hlast, if_true, Step.done.injEq] at h
          subst h
          exact Or.inr ⟨cur, c, rfl, hv, Or.inr hnf⟩
        | some node =>
          cases node with
          | dir =>
            simp only [hn] at h
            exact ih _ p (FS.valid_snoc hv hn) h
          | file =>
            simp only [hn] at h
            split_ifs at h
            simp only [Step.done.injEq] at h
            subst h
            exact Or.inr ⟨cur, c, rfl, hv, Or.inl hn⟩
          | symlink t =>
            simp only [hn, hlast, if_true, Step.done.injEq] at h
            subst h
            exact Or.inr ⟨cur, c, rfl, hv, Or.inr hnf⟩
      · cases hn : fs.nodes (cur ++ [c]) with
        | none => simp [hn, hlast] at h
        | some node =>
          cases node with
          | dir =>
            simp only [hn] at h
            exact ih _ p (FS.valid_snoc hv hn) h
          | file =>
            simp only [hn] at h
            split_ifs at h
            simp only [Step.done.injEq] at h
            subst h
            exact Or.inr ⟨cur, c, rfl, hv, Or.inl hn⟩
          | symlink t => simp [hn, hlast] at h

theorem walkDir_link_valid (fs : FS) (nf : Bool) (comps : List String) :
    ∀ (cur d : List String) (t : String) (r : List String), fs.Valid cur →
      walkDir fs nf cur comps = .link d t r → fs.Valid d := by
  induction comps with
  | nil =>
    intro cur d t r hv h
    simp [walkDir] at h
  | cons c rest ih =>
    intro cur d t r hv h
    rw [walkDir] at h
    by_cases hdd : c = ".."
    · rw [if_pos hdd] at h
      exact ih _ d t r (FS.valid_dropLast hv) h
    · rw [if_neg hdd] at h
      cases hn : fs.nodes (cur ++ [c]) with
      | none =>
        simp only [hn] at h
        split_ifs at h
      | some node =>
        cases node with
        | dir =>
          simp only [hn] at h
          exact ih _ d t r (FS.valid_snoc hv hn) h
        | file =>
          simp only [hn] at h
          split_ifs at h
        | symlink t2 =>
          simp only [hn] at h
          split_ifs at h
          simp only [Step.link.injEq] at h
          rw [← h.1]
          exact hv

theorem resolveFrom_reached (fs : FS) (nf : Bool) (n : Nat) :
    ∀ (cur comps p : List String), fs.Valid cur → resolveFrom fs nf n cur comps = .ok p →
      fs.Reached nf p := by
  induction n with
  | zero =>
    intro cur comps p hv h
    unfold resolveFrom at h
    split at h
    · rename_i hw
      simp only [Except.ok.injEq] at h
      subst h
      exact walkDir_reached fs nf comps cur _ hv hw
    · exact Except.noConfusion h
    · exact Except.noConfusion h
  | succ n ih =>
    intro cur comps p hv h
    unfold resolveFrom at h
    split at h
    · rename_i hw
      simp only [Except.ok.injEq] at h
      subst h
      exact walkDir_reached fs nf comps cur _ hv hw
    · exact Except.noConfusion h
    · rename_i d t r hw
      have hd := walkDir_link_valid fs nf comps cur d t r hv hw
      refine ih _ _ p ?_ h
      split
      · exact FS.valid_nil fs
      · exact hd

/-- The call `os.Stat` never reports `ModeSymlink`: it reports the file or the
directory the path leads to. -/
theorem osStat_mode (fs : FS) (path : String) (info : FileInfo)
    (h : osStat fs path = .ok info) : info.Mode = 0 ∨ info.Mode = ModeDir := by
  unfold osStat at h
  split at h
  · exact Except.noConfusion h
  · rename_i p hres
    have hr := resolveFrom_reached fs false _ _ _ p (FS.valid_nil fs) hres
    split at h
    · exact Except.noConfusion h
    · rename_i n hn
      simp only [Except.ok.injEq] at h
      subst h
      rcases hr with hv | ⟨parent, c, hp, -, hfile | hnf⟩
      · rw [FS.valid_lookup hv] at hn
        simp only [Option.some.injEq] at hn
        subst hn
        exact Or.inr rfl
      · subst hp
        rw [FS.lookup_snoc, hfile] at hn
        simp only [Option.some.injEq] at hn
        subst hn
        exact Or.inl rfl
      · exact Bool.noConfusion hnf

theorem osStat_not_symlink (fs : FS) (path : String) (info : FileInfo)
    (h : osStat fs path = .ok info) : ¬ (info.Mode &&& ModeSymlink = ModeSymlink) := by
  rcases osStat_mode fs path info h with h0 | h0 <;> rw [h0] <;> decide

/-! ### Resolution in a filesystem that has grown -/

theorem walkDir_mono {fs fs2 : FS} (hle : fs.le fs2) (comps : List String) :
    ∀ cur, walkDir fs false cur comps ≠ .fail .ENOENT →
      walkDir fs2 false cur comps = walkDir fs false cur comps := by
  induction comps with
  | nil => intro cur _; rfl
  | cons c rest ih =>
    intro cur h
    rw [walkDir] at h ⊢
    rw [walkDir]
    by_cases hdd : c = ".."
    · rw [if_pos hdd] at h ⊢
      rw [if_pos hdd]
      exact ih _ h
    · rw [if_neg hdd] at h ⊢
      rw [if_neg hdd]
      cases hn : fs.nodes (cur ++ [c]) with
      | none => simp [hn] at h
      | some node =>
        rw [hle _ _ hn]
        cases node with
        | dir =>
          simp only [hn] at h
          exact ih _ h
        | file => rfl
        | symlink t => rfl

theorem resolveFrom_mono {fs fs2 : FS} (hle : fs.le fs2) (n : Nat) :
    ∀ (cur comps p : List String), resolveFrom fs false n cur comps = .ok p →
      resolveFrom fs2 false n cur comps = .ok p := by
  induction n with
  | zero =>
    intro cur comps p h
    have hw : walkDir fs false cur comps ≠ .fail .ENOENT := by
      intro hf
      simp [resolveFrom, hf] at h
    rw [resolveFrom, walkDir_mono hle comps cur hw]
    rw [resolveFrom] at h
    exact h
  | succ n ih =>
    intro cur comps p h
    have hw : walkDir fs false cur comps ≠ .fail .ENOENT := by
      intro hf
      simp [resolveFrom, hf] at h
    rw [resolveFrom, walkDir_mono hle comps cur hw]
    rw [resolveFrom] at h
    cases hs : walkDir fs false cur comps with
    | done q => simpa [hs] using h
    | fail e => simp [hs] at h
    | link d t r =>
      simp only [hs] at h ⊢
      exact ih _ _ p h

/-! ### The last name of a path -/

theorem walkDir_snoc (fs : FS) (c : String) (hc : c ≠ "..") (comps : List String) :
    ∀ cur,
      (∀ D, walkDir fs false cur comps = .done D → fs.lookup D = some .dir →
        walkDir fs true cur (comps ++ [c]) = .done (D ++ [c])) ∧
      (∀ d t r, walkDir fs false cur comps = .link d t r →
        walkDir fs true cur (comps ++ [c]) = .link d t (r ++ [c])) := by
  induction comps with
  | nil =>
    intro cur
    refine ⟨?_, ?_⟩
    · intro D h _
      simp only [walkDir, Step.done.injEq] at h
      subst h
      rw [List.nil_append, walkDir, if_neg hc]
      cases hn : fs.nodes (cur ++ [c]) with
      | none => simp
      | some node => cases node <;> simp [walkDir]
    · intro d t r h
      simp [walkDir] at h
  | cons c2 rest ih =>
    intro cur
    have hne : (rest ++ [c]).isEmpty = false := by
      cases rest <;> rfl
    refine ⟨?_, ?_⟩
    · intro D h hD
      rw [walkDir] at h
      rw [List.cons_append, walkDir]
      by_cases hdd : c2 = ".."
      · rw [if_pos hdd] at h ⊢
        exact (ih _).1 D h hD
      · rw [if_neg hdd] at h ⊢
        cases hn : fs.nodes (cur ++ [c2]) with
        | none => simp [hn] at h
        | some node =>
          cases node with
          | dir =>
            simp only [hn] at h ⊢
            exact (ih _).1 D h hD
          | file =>
            simp only [hn] at h
            split_ifs at h
            simp only [Step.done.injEq] at h
            subst h
            rw [FS.lookup_snoc, hn] at hD
            simp at hD
          | symlink t => simp [hn] at h
    · intro d t r h
      rw [walkDir] at h
      rw [List.cons_append, walkDir]
      by_cases hdd : c2 = ".."
      · rw [if_pos hdd] at h ⊢
        exact (ih _).2 d t r h
      · rw [if_neg hdd] at h ⊢
        cases hn : fs.nodes (cur ++ [c2]) with
        | none =>
          simp only [hn] at h
          split_ifs at h
        | some node =>
          cases node with
          | dir =>
            simp only [hn] at h ⊢
            exact (ih _).2 d t r h
          | file =>
            simp only [hn] at h
            split_ifs at h
          | symlink t2 =>
            simp only [hn, Bool.and_false, Bool.false_eq_true, if_false, Step.link.injEq] at h
            simp only [hn, hne, Bool.false_and, Bool.false_eq_true, if_false, Step.link.injEq]
            exact ⟨h.1, h.2.1, by rw [h.2.2]⟩

theorem resolveFrom_snoc (fs : FS) (c : String) (hc : c ≠ "..") (n : Nat) :
    ∀ (cur comps D : List String), resolveFrom fs false n cur comps = .ok D →
      fs.lookup D = some .dir → resolveFrom fs true n cur (comps ++ [c]) = .ok (D ++ [c]) := by
  induction n with
  | zero =>
    intro cur comps D h hD
    rw [resolveFrom] at h ⊢
    cases hs : walkDir fs false cur comps with
    | done q =>
      simp only [hs, Except.ok.injEq] at h
      subst h
      rw [(walkDir_snoc fs c hc comps cur).1 q hs hD]
    | fail e => simp [hs] at h
    | link d t r => simp [hs] at h
  | succ n ih =>
    intro cur comps D h hD
    rw [resolveFrom] at h ⊢
    cases hs : walkDir fs false cur comps with
    | done q =>
      simp only [hs, Except.ok.injEq] at h
      subst h
      rw [(walkDir_snoc fs c hc comps cur).1 q hs hD]
    | fail e => simp [hs] at h
    | link d t r =>
      simp only [hs] at h
      rw [(walkDir_snoc fs c hc comps cur).2 d t r hs]
      simp only
      rw [← List.append_assoc]
      exact ih _ _ D h hD

/-! ### A last name that is there and is not a link -/

theorem walkDir_followed {fs fs2 : FS} (hle : fs.le fs2) (comps : List String) :
    ∀ cur,
      (∀ P, walkDir fs true cur comps = .done P →
        (fs2.lookup P = some .dir ∨ fs2.lookup P = some .file) →
        walkDir fs2 false cur comps = .done P) ∧
      (∀ d t r, walkDir fs true cur comps = .link d t r →
        walkDir fs2 false cur comps = .link d t r) := by
  induction comps with
  | nil =>
    intro cur
    refine ⟨?_, ?_⟩
    · intro P h _
      simpa [walkDir] using h
    · intro d t r h
      simp [walkDir] at h
  | cons c rest ih =>
    intro cur
    refine ⟨?_, ?_⟩
    · intro P h hP
      rw [walkDir] at h ⊢
      by_cases hdd : c = ".."
      · rw [if_pos hdd] at h ⊢
        exact (ih _).1 P h hP
      · rw [if_neg hdd] at h ⊢
        cases hn : fs.nodes (cur ++ [c]) with
        | none =>
          simp only [hn, Bool.and_true] at h
          split_ifs at h with hlast
          simp only [Step.done.injEq] at h
          subst h
          have hrest : rest = [] := by simpa using hlast
          subst hrest
          rw [FS.lookup_snoc] at hP
          rcases hP with hP | hP <;> simp [hP, walkDir]
        | some node =>
          have hn2 := hle _ _ hn
          cases node with
          | dir =>
            simp only [hn] at h
            simp only [hn2]
            exact (ih _).1 P h hP
          | file =>
            simp only [hn] at h
            simp only [hn2]
            exact h
          | symlink t =>
            simp only [hn, Bool.and_true] at h
            split_ifs at h with hlast
            simp only [Step.done.injEq] at h
            subst h
            rw [FS.lookup_snoc, hn2] at hP
            simp at hP
    · intro d t r h
      rw [walkDir] at h ⊢
      by_cases hdd : c = ".."
      · rw [if_pos hdd] at h ⊢
        exact (ih _).2 d t r h
      · rw [if_neg hdd] at h ⊢
        cases hn : fs.nodes (cur ++ [c]) with
        | none =>
          simp only [hn] at h
          split_ifs at h
        | some node =>
          have hn2 := hle _ _ hn
          cases node with
          | dir =>
            simp only [hn] at h
            simp only [hn2]
            exact (ih _).2 d t r h
          | file =>
            simp only [hn] at h
            split_ifs at h
          | symlink t2 =>
            simp only [hn, Bool.and_true] at h
            split_ifs at h with hlast
            simp only [hn2, Bool.and_false, Bool.false_eq_true, if_false]
            exact h

/-- When resolution that does not follow the last name ends at a location
where (later) a directory or a file is, resolution that follows every link
ends there too. -/
theorem resolveFrom_followed {fs fs2 : FS} (hle : fs.le fs2) (n : Nat) :
    ∀ (cur comps P : List String), resolveFrom fs true n cur comps = .ok P →
      (fs2.lookup P = some .dir ∨ fs2.lookup P = some .file) →
      resolveFrom fs2 false n cur comps = .ok P := by
  induction n with
  | zero =>
    intro cur comps P h hP
    rw [resolveFrom] at h ⊢
    cases hs : walkDir fs true cur comps with
    | done q =>
      simp only [hs, Except.ok.injEq] at h
      subst h
      rw [(walkDir_followed hle comps cur).1 q hs hP]
    | fail e => simp [hs] at h
    | link d t r => simp [hs] at h
  | succ n ih =>
    intro cur comps P h hP
    rw [resolveFrom] at h ⊢
    cases hs : walkDir fs true cur comps with
    | done q =>
      simp only [hs, Except.ok.injEq] at h
      subst h
      rw [(walkDir_followed hle comps cur).1 q hs hP]
    | fail e => simp [hs] at h
    | link d t r =>
      simp only [hs] at h
      rw [(walkDir_followed hle comps cur).2 d t r hs]
      exact ih _ _ P h hP

theorem FS.le_refl (fs : FS) : fs.le fs := fun _ _ h => h

theorem FS.le_trans {a b c : FS} (h1 : a.le b) (h2 : b.le c) : a.le c :=
  fun q n h => h2 q n (h1 q n h)

theorem FS.le_insert (fs : FS) (p : List String) (n : Node) (h : fs.nodes p = none) :
    fs.le (fs.insert p n) := by
  intro q m hq
  have hne : q ≠ p := by
    rintro rfl
    rw [h] at hq
    exact Option.noConfusion hq
  simp [FS.insert, hne, hq]

theorem FS.insert_nodes_self (fs : FS) (p : List String) (n : Node) :
    (fs.insert p n).nodes p = some n := by
  simp [FS.insert]

theorem FS.insert_nodes_ne (fs : FS) (p q : List String) (n : Node) (h : q ≠ p) :
    (fs.insert p n).nodes q = fs.nodes q := by
  simp [FS.insert, h]

theorem FS.lookup_eq_nodes (fs : FS) (p : List String) (h : fs.lookup p = none) :
    fs.nodes p = none ∧ p ≠ [] := by
  unfold FS.lookup at h
  split_ifs at h with hp
  exact ⟨h, hp⟩

theorem Node.isDir_info (n : Node) (h : n.info.IsDir = true) : n = .dir := by
  cases n with
  | dir => rfl
  | file => exact absurd h (by decide)
  | symlink t =>
    have h2 : (Node.symlink t).info.IsDir = false := by
      show ((ModeSymlink &&& ModeDir != 0) = false)
      decide
    rw [h2] at h
    exact Bool.noConfusion h

/-! ### `os.MkdirAll` -/

theorem osStat_dirAt (fs : FS) (path : String) (info : FileInfo)
    (h : osStat fs path = .ok info) (hd : info.IsDir = true) :
    ∃ D, fs.DirAt (pathComps path) D := by
  unfold osStat FS.resolve at h
  cases hr : resolveFrom fs false maxSymlinks [] (pathComps path) with
  | error e => simp [hr] at h
  | ok D =>
    simp only [hr] at h
    cases hl : fs.lookup D with
    | none => simp [hl] at h
    | some n =>
      simp only [hl, Except.ok.injEq] at h
      subst h
      rw [Node.isDir_info n hd] at hl
      exact ⟨D, hr, hl⟩

theorem FS.ensured_refl (fs : FS) (comps D : List String) (h : fs.DirAt comps D) :
    fs.Ensured fs comps D :=
  ⟨h, FS.le_refl fs, fun _ hq => absurd rfl hq⟩

theorem FS.dirAt_nil (fs : FS) : fs.DirAt [] [] :=
  ⟨by simp [resolveFrom, maxSymlinks, walkDir], rfl⟩

theorem mkdirLast_ensured (fs fs2 fs1 : FS) (path : String) (pc Dp : List String) (c : String)
    (hpc : pathComps path = pc ++ [c]) (hc : c ≠ "..")
    (hpar : fs.Ensured fs2 pc Dp) (h : mkdirLast fs2 path = (fs1, none)) :
    fs.Ensured fs1 (pc ++ [c]) (Dp ++ [c]) := by
  obtain ⟨⟨hres, hdir⟩, hle, hnew⟩ := hpar
  have hsnoc : resolveFrom fs2 true maxSymlinks [] (pc ++ [c]) = .ok (Dp ++ [c]) :=
    resolveFrom_snoc fs2 c hc _ _ _ _ hres hdir
  have hresolve : fs2.resolve true path = .ok (Dp ++ [c]) := by
    unfold FS.resolve
    rw [hpc]
    exact hsnoc
  have hold : ∀ q, fs2.nodes q ≠ fs.nodes q → q <+: Dp ++ [c] ∧ fs.lookup q = none :=
    fun q hq => ⟨(hnew q hq).1.trans (List.prefix_append Dp [c]), (hnew q hq).2⟩
  unfold mkdirLast osMkdir createNode at h
  rw [hresolve] at h
  cases hl : fs2.lookup (Dp ++ [c]) with
  | none =>
    simp only [hl, Prod.mk.injEq, and_true] at h
    subst h
    have hnone : fs2.nodes (Dp ++ [c]) = none := by
      rw [← FS.lookup_snoc]
      exact hl
    have hle2 := FS.le_insert fs2 (Dp ++ [c]) .dir hnone
    have hself : (fs2.insert (Dp ++ [c]) .dir).lookup (Dp ++ [c]) = some .dir := by
      rw [FS.lookup_snoc, FS.insert_nodes_self]
    refine ⟨⟨resolveFrom_followed hle2 _ _ _ _ hsnoc (Or.inl hself), hself⟩,
      FS.le_trans hle hle2, ?_⟩
    intro q hq
    by_cases hqp : q = Dp ++ [c]
    · subst hqp
      refine ⟨List.prefix_refl _, ?_⟩
      rw [FS.lookup_snoc]
      cases hf : fs.nodes (Dp ++ [c]) with
      | none => rfl
      | some n =>
        rw [hle _ _ hf] at hnone
        exact Option.noConfusion hnone
    · rw [FS.insert_nodes_ne _ _ _ _ hqp] at hq
      exact hold q hq
  | some n =>
    simp only [hl] at h
    unfold osLstat at h
    rw [hresolve] at h
    simp only [hl] at h
    split_ifs at h with hd
    · simp only [Prod.mk.injEq, and_true] at h
      subst h
      rw [Node.isDir_info n hd] at hl
      exact ⟨⟨resolveFrom_followed (FS.le_refl _) _ _ _ _ hsnoc (Or.inl hl), hl⟩, hle, hold⟩
    · simp at h

theorem mkdirAllFuel_step (fs fs1 : FS) (n : Nat) (path : String) (pc : List String)
    (c : String) (hpc : pathComps path = pc ++ [c]) (hc : c ≠ "..")
    (hparent : ∀ fs2,
      (match parentDir path with
        | some dir => mkdirAllFuel n fs dir
        | none => (fs, none)) = (fs2, none) → ∃ Dp, fs.Ensured fs2 pc Dp)
    (h : mkdirAllFuel (n + 1) fs path = (fs1, none)) :
    ∃ D, fs.Ensured fs1 (pc ++ [c]) D := by
  rw [mkdirAllFuel] at h
  cases hs : osStat fs path with
  | ok info =>
    simp only [hs] at h
    split_ifs at h with hd
    · simp only [Prod.mk.injEq, and_true] at h
      subst h
      obtain ⟨D, hD⟩ := osStat_dirAt fs path info hs hd
      rw [hpc] at hD
      exact ⟨D, FS.ensured_refl fs _ D hD⟩
    · simp at h
  | error e =>
    simp only [hs] at h
    generalize hpr : (match parentDir path with
        | some dir => mkdirAllFuel n fs dir
        | none => (fs, none)) = parent at h hparent
    obtain ⟨fs2, err⟩ := parent
    cases err with
    | some e2 => simp at h
    | none =>
      simp only at h
      obtain ⟨Dp, hDp⟩ := hparent fs2 rfl
      exact ⟨Dp ++ [c], mkdirLast_ensured fs fs2 fs1 path pc Dp c hpc hc hDp h⟩

/-- When `os.MkdirAll("/opt/resource")` succeeds, `/opt/resource` leads to a directory,
nothing that was there is lost, and what is new is that directory or above
it. -/
theorem osMkdirAll_ensured (fs fs1 : FS) (h : osMkdirAll fs "/opt/resource" = (fs1, none)) :
    ∃ D, fs.Ensured fs1 ["opt", "resource"] D := by
  have h14 : osMkdirAll fs "/opt/resource" = mkdirAllFuel (12 + 1 + 1) fs "/opt/resource" := rfl
  rw [h14] at h
  refine mkdirAllFuel_step fs fs1 (12 + 1) "/opt/resource" ["opt"] "resource"
    (by decide) (by decide) ?_ h
  intro fs2 hp
  have hparent : parentDir "/opt/resource" = some "/opt" := by decide
  simp only [hparent] at hp
  refine mkdirAllFuel_step fs fs2 12 "/opt" [] "opt" (by decide) (by decide) ?_ hp
  intro fs3 hp3
  have hroot : parentDir "/opt" = none := by decide
  simp only [hroot, Prod.mk.injEq, and_true] at hp3
  subst hp3
  exact ⟨[], FS.ensured_refl fs _ _ (FS.dirAt_nil fs)⟩

/-! ### Names in the installation directory -/

theorem FS.WF.valid {fs : FS} (hwf : fs.WF) :
    ∀ D, fs.lookup D = some .dir → fs.Valid D := by
  intro D
  induction D using List.reverseRecOn with
  | nil => intro _; exact FS.valid_nil fs
  | append_singleton D a ih =>
    intro h
    rw [FS.lookup_snoc] at h
    have hp := hwf D a (by rw [h]; exact Option.noConfusion)
    exact FS.valid_snoc (ih hp) h

theorem FS.insert_lookup_ne (fs : FS) (p q : List String) (n : Node) (h : q ≠ p) :
    (fs.insert p n).lookup q = fs.lookup q := by
  simp [FS.lookup, FS.insert, h]

theorem FS.insert_lookup_self (fs : FS) (D : List String) (x : String) (n : Node) :
    (fs.insert (D ++ [x]) n).lookup (D ++ [x]) = some n := by
  rw [FS.lookup_snoc, FS.insert_nodes_self]

theorem snoc_ne_self (D : List String) (x : String) : D ≠ D ++ [x] := by
  intro h
  have := congrArg List.length h
  simp at this

theorem FS.dirAt_insert {fs : FS} {cs D : List String} (x : String) (n : Node)
    (hdir : fs.DirAt cs D) (hfree : fs.lookup (D ++ [x]) = none) :
    (fs.insert (D ++ [x]) n).DirAt cs D := by
  have hnone : fs.nodes (D ++ [x]) = none := (FS.lookup_eq_nodes fs _ hfree).1
  refine ⟨resolveFrom_mono (FS.le_insert fs _ n hnone) _ _ _ _ hdir.1, ?_⟩
  rw [FS.insert_lookup_ne _ _ _ _ (snoc_ne_self D x)]
  exact hdir.2

theorem FS.resolve_in_dir {fs : FS} {cs D : List String} {x entry : String}
    (hdir : fs.DirAt cs D) (hentry : pathComps entry = cs ++ [x]) (hx : x ≠ "..") :
    fs.resolve true entry = .ok (D ++ [x]) := by
  unfold FS.resolve
  rw [hentry]
  exact resolveFrom_snoc fs x hx _ _ _ _ hdir.1 hdir.2

theorem osLstat_in_dir {fs : FS} {cs D : List String} {x entry : String}
    (hdir : fs.DirAt cs D) (hentry : pathComps entry = cs ++ [x]) (hx : x ≠ "..") :
    osLstat fs entry =
      match fs.lookup (D ++ [x]) with
      | none => .error .ENOENT
      | some n => .ok n.info := by
  unfold osLstat
  rw [FS.resolve_in_dir hdir hentry hx]

theorem osReadlink_in_dir {fs : FS} {cs D : List String} {x entry : String}
    (hdir : fs.DirAt cs D) (hentry : pathComps entry = cs ++ [x]) (hx : x ≠ "..") :
    osReadlink fs entry =
      match fs.lookup (D ++ [x]) with
      | some (.symlink t) => .ok t
      | some _ => .error .EINVAL
      | none => .error .ENOENT := by
  unfold osReadlink
  rw [FS.resolve_in_dir hdir hentry hx]

theorem osSymlink_in_dir {fs : FS} {cs D : List String} {x entry : String} (old : String)
    (hdir : fs.DirAt cs D) (hentry : pathComps entry = cs ++ [x]) (hx : x ≠ "..") :
    osSymlink fs old entry =
      match fs.lookup (D ++ [x]) with
      | some _ => .error .EEXIST
      | none => .ok (fs.insert (D ++ [x]) (.symlink old)) := by
  unfold osSymlink createNode
  rw [FS.resolve_in_dir hdir hentry hx]

/-- In a well-formed filesystem, a name that `os.Lstat` does not find below the
path of the installation directory is not there once the directory has been
ensured. -/
theorem FS.Ensured.free {fs fs1 : FS} {C D : List String} {x E : String}
    (hens : fs.Ensured fs1 C D) (hwf : fs.WF)
    (hE : pathComps E = C ++ [x]) (hx : x ≠ "..")
    (hfree : ∀ info, osLstat fs E ≠ .ok info) :
    fs1.lookup (D ++ [x]) = none := by
  obtain ⟨hdir, hle, hnew⟩ := hens
  cases hl : fs1.lookup (D ++ [x]) with
  | none => rfl
  | some n =>
    exfalso
    rw [FS.lookup_snoc] at hl
    have hsame : fs.nodes (D ++ [x]) = fs1.nodes (D ++ [x]) := by
      by_contra hdiff
      have hpre := (hnew _ (fun h => hdiff h.symm)).1
      have hlen := hpre.length_le
      simp at hlen
    have hD : fs.lookup D = some .dir :=
      hwf D x (by rw [hsame, hl]; exact Option.noConfusion)
    have hvalid := hwf.valid D hD
    have hnodes : fs1.nodes = fs.nodes := by
      funext q
      by_contra hq
      obtain ⟨hpre, hnone⟩ := hnew q hq
      rw [hvalid q hpre] at hnone
      exact Option.noConfusion hnone
    have hfs : fs1 = fs := by
      cases fs
      cases fs1
      simp only [FS.mk.injEq]
      exact hnodes
    rw [hfs] at hdir
    have hstat := osLstat_in_dir hdir hE hx
    rw [FS.lookup_snoc, hsame, hl] at hstat
    exact hfree _ hstat

theorem linkFS_lookup_self (present : Bool) (fs : FS) (D : List String) (x binPath : String) :
    (linkFS present fs (D ++ [x]) binPath).lookup (D ++ [x]) =
      if present then some (.symlink binPath) else fs.lookup (D ++ [x]) := by
  unfold linkFS
  split
  · exact FS.insert_lookup_self fs D x _
  · rfl

theorem linkFS_lookup_ne (present : Bool) (fs : FS) (loc q : List String) (binPath : String)
    (h : q ≠ loc) : (linkFS present fs loc binPath).lookup q = fs.lookup q := by
  unfold linkFS
  split
  · exact FS.insert_lookup_ne fs loc q _ h
  · rfl

theorem linkFS_dirAt (present : Bool) {fs : FS} {cs D : List String} (x binPath : String)
    (hdir : fs.DirAt cs D) (hfree : fs.lookup (D ++ [x]) = none) :
    (linkFS present fs (D ++ [x]) binPath).DirAt cs D := by
  unfold linkFS
  split
  · exact FS.dirAt_insert x _ hdir hfree
  · exact hdir

/-- A link step in a directory that has no node of that name makes the link
(when the capability is present) and reports no error. -/
theorem linkStep_free (present : Bool) (binPath E : String) (w : World)
    {C D : List String} {x : String}
    (hdir : w.fs.DirAt C D) (hE : pathComps E = C ++ [x]) (hx : x ≠ "..")
    (hfree : w.fs.lookup (D ++ [x]) = none) :
    (linkStep present binPath E w).2 = none ∧
      (linkStep present binPath E w).1.fs = linkFS present w.fs (D ++ [x]) binPath := by
  unfold linkStep linkFS
  rw [osSymlink_in_dir binPath hdir hE hx, hfree]
  cases present <;> simp [World.log]

/-! ### The Install flow when every step succeeds -/

theorem osStat_of_osLstat (fs : FS) (path : String) (info : FileInfo)
    (h : osLstat fs path = .ok info) (hmode : info.Mode &&& ModeSymlink ≠ ModeSymlink) :
    osStat fs path = .ok info := by
  unfold osLstat at h
  unfold osStat
  cases hr : fs.resolve true path with
  | error e => simp [hr] at h
  | ok P =>
    simp only [hr] at h
    cases hl : fs.lookup P with
    | none => simp [hl] at h
    | some n =>
      simp only [hl, Except.ok.injEq] at h
      subst h
      have hP : fs.lookup P = some .dir ∨ fs.lookup P = some .file := by
        cases n with
        | dir => exact Or.inl hl
        | file => exact Or.inr hl
        | symlink t =>
          exact absurd (by decide : ModeSymlink &&& ModeSymlink = ModeSymlink) hmode
      have hf : fs.resolve false path = .ok P :=
        resolveFrom_followed (FS.le_refl fs) _ _ _ _ hr hP
      simp [hf, hl]

theorem World.log_fs (w : World) (e : Event) : (w.log e).fs = w.fs := rfl

theorem makeLinks_free (r : ResourceType S V G P) (p : String) (w1 : World)
    (D : List String) (hD : w1.fs.DirAt ["opt", "resource"] D)
    (hc : w1.fs.lookup (D ++ ["check"]) = none)
    (hi : w1.fs.lookup (D ++ ["in"]) = none)
    (ho : w1.fs.lookup (D ++ ["out"]) = none) :
    (makeLinks r p w1).2 = .returned none ∧
      (makeLinks r p w1).1.fs =
        linkFS r.out.isSome
          (linkFS r.in_.isSome (linkFS r.check.isSome w1.fs (D ++ ["check"]) p) (D ++ ["in"]) p)
          (D ++ ["out"]) p := by
  have k1 := linkStep_free r.check.isSome p "/opt/resource/check" w1
    (C := ["opt", "resource"]) (D := D) (x := "check") hD (by decide) (by decide) hc
  have hD2 := linkFS_dirAt r.check.isSome "check" p hD hc
  have hi2 : (linkFS r.check.isSome w1.fs (D ++ ["check"]) p).lookup (D ++ ["in"]) = none := by
    rw [linkFS_lookup_ne _ _ _ _ _ (by simp)]
    exact hi
  have ho2 : (linkFS r.check.isSome w1.fs (D ++ ["check"]) p).lookup (D ++ ["out"]) = none := by
    rw [linkFS_lookup_ne _ _ _ _ _ (by simp)]
    exact ho
  rw [← k1.2] at hD2 hi2 ho2
  have k2 := linkStep_free r.in_.isSome p "/opt/resource/in" _
    (C := ["opt", "resource"]) (D := D) (x := "in") hD2 (by decide) (by decide) hi2
  have hD3 := linkFS_dirAt r.in_.isSome "in" p hD2 hi2
  have ho3 : (linkFS r.in_.isSome (linkStep r.check.isSome p "/opt/resource/check" w1).1.fs
      (D ++ ["in"]) p).lookup (D ++ ["out"]) = none := by
    rw [linkFS_lookup_ne _ _ _ _ _ (by simp)]
    exact ho2
  rw [← k2.2] at hD3 ho3
  have k3 := linkStep_free r.out.isSome p "/opt/resource/out" _
    (C := ["opt", "resource"]) (D := D) (x := "out") hD3 (by decide) (by decide) ho3
  unfold makeLinks
  simp only [k1.1, k2.1, k3.1]
  refine ⟨trivial, ?_⟩
  rw [k3.2, k2.2, k1.2]

theorem installFlow_links (r : ResourceType S V G P) (args : List String) (p : String)
    (w : World) (info : FileInfo) (fs1 : FS) (D : List String)
    (hstat : osStat w.fs p = .ok info)
    (hargs : args.get? 1 = some "install")
    (hmk : osMkdirAll w.fs "/opt/resource" = (fs1, none))
    (hD : fs1.DirAt ["opt", "resource"] D)
    (hc : fs1.lookup (D ++ ["check"]) = none)
    (hi : fs1.lookup (D ++ ["in"]) = none)
    (ho : fs1.lookup (D ++ ["out"]) = none) :
    (installFlow r args p w).2 = .returned none ∧
      (installFlow r args p w).1.fs =
        linkFS r.out.isSome
          (linkFS r.in_.isSome (linkFS r.check.isSome fs1 (D ++ ["check"]) p) (D ++ ["in"]) p)
          (D ++ ["out"]) p := by
  have hmode := osStat_not_symlink w.fs p info hstat
  have hlen : ¬ (args.length < 2 ∨ args.get? 1 ≠ some "install") := by
    rintro (h | h)
    · have := List.get?_eq_none.mpr (Nat.le_of_lt_succ (by omega : args.length < 1 + 1))
      rw [this] at hargs
      exact Option.noConfusion hargs
    · exact h hargs
  unfold installFlow
  simp only [hstat, Except.toOption, World.log_fs, hmk]
  rw [if_neg (by simp [hmode]), if_neg hlen]
  exact makeLinks_free r p _ D hD hc hi ho

theorem linkFS_three (c i o : Bool) (fs1 : FS) (D : List String) (p : String)
    (hD : fs1.DirAt ["opt", "resource"] D)
    (hc : fs1.lookup (D ++ ["check"]) = none)
    (hi : fs1.lookup (D ++ ["in"]) = none)
    (ho : fs1.lookup (D ++ ["out"]) = none) :
    (linkFS o (linkFS i (linkFS c fs1 (D ++ ["check"]) p) (D ++ ["in"]) p)
        (D ++ ["out"]) p).DirAt ["opt", "resource"] D ∧
      (linkFS o (linkFS i (linkFS c fs1 (D ++ ["check"]) p) (D ++ ["in"]) p)
        (D ++ ["out"]) p).lookup (D ++ ["check"]) =
          (if c then some (.symlink p) else none) ∧
      (linkFS o (linkFS i (linkFS c fs1 (D ++ ["check"]) p) (D ++ ["in"]) p)
        (D ++ ["out"]) p).lookup (D ++ ["in"]) =
          (if i then some (.symlink p) else none) ∧
      (linkFS o (linkFS i (linkFS c fs1 (D ++ ["check"]) p) (D ++ ["in"]) p)
        (D ++ ["out"]) p).lookup (D ++ ["out"]) =
          (if o then some (.symlink p) else none) := by
  have hD2 := linkFS_dirAt c "check" p hD hc
  have hi2 : (linkFS c fs1 (D ++ ["check"]) p).lookup (D ++ ["in"]) = none := by
    rw [linkFS_lookup_ne _ _ _ _ _ (by simp)]
    exact hi
  have ho2 : (linkFS c fs1 (D ++ ["check"]) p).lookup (D ++ ["out"]) = none := by
    rw [linkFS_lookup_ne _ _ _ _ _ (by simp)]
    exact ho
  have hD3 := linkFS_dirAt i "in" p hD2 hi2
  have ho3 : (linkFS i (linkFS c fs1 (D ++ ["check"]) p) (D ++ ["in"]) p).lookup
      (D ++ ["out"]) = none := by
    rw [linkFS_lookup_ne _ _ _ _ _ (by simp)]
    exact ho2
  refine ⟨linkFS_dirAt o "out" p hD3 ho3, ?_, ?_, ?_⟩
  · rw [linkFS_lookup_ne _ _ _ _ _ (by simp), linkFS_lookup_ne _ _ _ _ _ (by simp),
      linkFS_lookup_self, hc]
  · rw [linkFS_lookup_ne _ _ _ _ _ (by simp), linkFS_lookup_self, hi2]
  · rw [linkFS_lookup_self, ho3]

/-- What can be read back at an E point whose node is a link to `p` when the
capability is present and nothing otherwise. -/
theorem entry_readback {fs : FS} {C D : List String} {x E : String} (present : Bool)
    (p : String) (hdir : fs.DirAt C D) (hE : pathComps E = C ++ [x]) (hx : x ≠ "..")
    (hl : fs.lookup (D ++ [x]) = if present then some (.symlink p) else none) :
    (osReadlink fs E = .ok p ↔ present = true) ∧
      (present = false → osLstat fs E = .error .ENOENT) := by
  rw [osReadlink_in_dir hdir hE hx, osLstat_in_dir hdir hE hx, hl]
  cases present <;> simp

theorem sampleFS_wf : sampleFS.WF := by
  intro q c h
  match q with
  | [] => rfl
  | [a] =>
    have ha : a = "usr" := by
      by_contra hne
      apply h
      simp [sampleFS, hne]
    subst ha
    rfl
  | [a, b] =>
    have hab : a = "usr" ∧ b = "bin" := by
      by_contra hne
      apply h
      rw [not_and_or] at hne
      rcases hne with hne | hne <;> simp [sampleFS, hne]
    obtain ⟨ha, hb⟩ := hab
    subst ha hb
    rfl
  | a :: b :: d :: more =>
    exfalso
    apply h
    simp [sampleFS]

/-! ### The link steps as a sequence -/

theorem linkStep_absent (binPath E : String) (w : World) :
    linkStep false binPath E w = (w, none) := rfl

theorem makeLinks_eq_linkAll (r : ResourceType S V G P) (p : String) (w1 : World) :
    makeLinks r p w1 =
      ((linkAll p (plannedNames r) w1).1, .returned (linkAll p (plannedNames r) w1).2) := by
  have e1 : entryPoint "check" = "/opt/resource/check" := by decide
  have e2 : entryPoint "in" = "/opt/resource/in" := by decide
  have e3 : entryPoint "out" = "/opt/resource/out" := by decide
  unfold makeLinks plannedNames
  cases r.check.isSome <;> cases r.in_.isSome <;> cases r.out.isSome <;>
    simp only [linkStep_absent, linkAll, e1, e2, e3, if_true, if_false, Bool.false_eq_true,
      List.nil_append, List.cons_append, List.append_nil] <;>
    (repeat' split) <;> simp_all

theorem linkAll_append (p : String) (xs ys : List String) :
    ∀ w, linkAll p (xs ++ ys) w =
      match (linkAll p xs w).2 with
      | some e => ((linkAll p xs w).1, some e)
      | none => linkAll p ys (linkAll p xs w).1 := by
  induction xs with
  | nil => intro w; rfl
  | cons x xs ih =>
    intro w
    rw [List.cons_append, linkAll, linkAll]
    cases h : (linkStep true p (entryPoint x) w).2 with
    | some e => rfl
    | none => exact ih _

theorem linkAll_trace (p : String) (xs : List String) :
    ∀ w wk, linkAll p xs w = (wk, none) →
      wk.trace = w.trace ++ xs.map (fun y => Event.symlink p (entryPoint y)) := by
  induction xs with
  | nil =>
    intro w wk h
    simp only [linkAll, Prod.mk.injEq, and_true] at h
    subst h
    simp
  | cons x xs ih =>
    intro w wk h
    rw [linkAll] at h
    cases hs : (linkStep true p (entryPoint x) w).2 with
    | some e => simp [hs] at h
    | none =>
      simp only [hs] at h
      rw [ih _ _ h]
      have ht : (linkStep true p (entryPoint x) w).1.trace =
          w.trace ++ [Event.symlink p (entryPoint x)] := by
        unfold linkStep
        simp only [if_true]
        split <;> rfl
      rw [ht]
      simp

theorem osSymlink_exists (fs : FS) (old E : String) (i : FileInfo)
    (h : osLstat fs E = .ok i) : osSymlink fs old E = .error .EEXIST := by
  unfold osLstat at h
  unfold osSymlink createNode
  cases hr : fs.resolve true E with
  | error e => simp [hr] at h
  | ok P =>
    simp only [hr] at h ⊢
    cases hl : fs.lookup P with
    | none => simp [hl] at h
    | some n => rfl

/-- After links for the distinct names `xs` have been made in the directory of
the E points, each of them is a link to `p`. -/
theorem linkAll_links (p : String) (D : List String) (xs : List String) :
    ∀ w wk, linkAll p xs w = (wk, none) → w.fs.DirAt ["opt", "resource"] D →
      xs.Nodup →
      (∀ x ∈ xs, pathComps (entryPoint x) = ["opt", "resource"] ++ [x] ∧ x ≠ "..") →
      wk.fs.DirAt ["opt", "resource"] D ∧
        (∀ x ∈ xs, wk.fs.lookup (D ++ [x]) = some (.symlink p)) ∧
        (∀ y, y ∉ xs → wk.fs.lookup (D ++ [y]) = w.fs.lookup (D ++ [y])) := by
  induction xs with
  | nil =>
    intro w wk h hD _ _
    simp only [linkAll, Prod.mk.injEq, and_true] at h
    subst h
    exact ⟨hD, by simp, fun _ _ => rfl⟩
  | cons x xs ih =>
    intro w wk h hD hnd hx
    rw [linkAll] at h
    obtain ⟨hxc, hxd⟩ := hx x (List.mem_cons_self x xs)
    have hsym := osSymlink_in_dir p hD hxc hxd
    cases hl : w.fs.lookup (D ++ [x]) with
    | some n =>
      exfalso
      rw [hl] at hsym
      simp [linkStep, hsym] at h
    | none =>
      rw [hl] at hsym
      have hstep : linkStep true p (entryPoint x) w =
          ({ w with fs := w.fs.insert (D ++ [x]) (.symlink p) }.log
            (.symlink p (entryPoint x)), none) := by
        simp [linkStep, hsym]
      rw [hstep] at h
      simp only at h
      have hD2 : (w.fs.insert (D ++ [x]) (.symlink p)).DirAt ["opt", "resource"] D :=
        FS.dirAt_insert x _ hD hl
      rw [List.nodup_cons] at hnd
      obtain ⟨hD3, hin, hout⟩ := ih _ wk h hD2 hnd.2
        (fun y hy => hx y (List.mem_cons_of_mem x hy))
      refine ⟨hD3, ?_, ?_⟩
      · intro y hy
        rcases List.mem_cons.mp hy with rfl | hy
        · rw [hout y hnd.1]
          exact FS.insert_lookup_self _ D y _
        · exact hin y hy
      · intro y hy
        rw [List.mem_cons, not_or] at hy
        rw [hout y hy.2]
        exact FS.insert_lookup_ne _ _ _ _ (by simpa using hy.1)

theorem plannedNames_sublist (r : ResourceType S V G P) :
    (plannedNames r).Sublist ["check", "in", "out"] := by
  unfold plannedNames
  cases r.check.isSome <;> cases r.in_.isSome <;> cases r.out.isSome <;> decide

theorem installFlow_eq_makeLinks (r : ResourceType S V G P) (args : List String) (p : String)
    (w : World) (info : FileInfo) (fs1 : FS)
    (hstat : osStat w.fs p = .ok info)
    (hargs : args.get? 1 = some "install")
    (hmk : osMkdirAll w.fs "/opt/resource" = (fs1, none)) :
    installFlow r args p w = makeLinks r p (afterMkdirAll w p fs1) := by
  have hmode := osStat_not_symlink w.fs p info hstat
  have hlen : ¬ (args.length < 2 ∨ args.get? 1 ≠ some "install") := by
    rintro (h | h)
    · have := List.get?_eq_none.mpr (Nat.le_of_lt_succ (by omega : args.length < 1 + 1))
      rw [this] at hargs
      exact Option.noConfusion hargs
    · exact h hargs
  unfold installFlow
  simp only [hstat, Except.toOption, World.log_fs, hmk]
  rw [if_neg (by simp [hmode]), if_neg hlen]
  rfl

theorem entryPoint_comps (x : String) (hx : x ∈ ["check", "in", "out"]) :
    pathComps (entryPoint x) = ["opt", "resource"] ++ [x] ∧ x ≠ ".." := by
  simp only [List.mem_cons, List.mem_singleton, List.not_mem_nil, or_false] at hx
  rcases hx with rfl | rfl | rfl <;> decide

end Lemmas























/-! ## C1: the dispatch on the resolved path of argument zero -/

section Claims
variable {S V G P : Type} [GoJson S] [GoJson V] [GoJson G] [GoJson P]

/-- C1. When argument zero resolves to the absolute path `p`, `Run` is exactly one
of the four flows of `runner.go`: the Check flow when
`p = "/opt/resource/check"`, the Get flow when `p = "/opt/resource/in"`, the Put
flow when `p = "/opt/resource/out"`, the Install flow for every other `p`.
The flow is seen to run: with the capability present and a request that
decodes (and, for Get and Put, the target directory among the arguments) a
verb flow reads the request and calls the capability of its verb, and the
Install flow begins with the `os.Stat` of `p`. No other flow runs: a call of
the Checker happens only for the check path, of the Getter only for the in
path, of the Putter only for the out path, a filesystem primitive only for a
path that is none of the three, a stream primitive or a call only for one of
the three. So a verb flow leaves the filesystem as it is and performs no
filesystem primitive, and the Install flow leaves both streams as they are
and performs filesystem primitives only (no read, no write, no call of a
capability). -/
theorem C1_dispatch (r : ResourceType S V G P) (args : List String) (w : World)
    (a0 : String) (rest : List String) (p : String)
    (hargs : effectiveArgs args w = a0 :: rest)
    (habs : filepathAbs w.getwd a0 = .ok p) :
    (p = "/opt/resource/check" → Run r args w = checkFlow r w) ∧
    (p = "/opt/resource/in" → Run r args w = getFlow r (a0 :: rest) w) ∧
    (p = "/opt/resource/out" → Run r args w = putFlow r (a0 :: rest) w) ∧
    (p ≠ "/opt/resource/check" → p ≠ "/opt/resource/in" → p ≠ "/opt/resource/out" →
      Run r args w = installFlow r (a0 :: rest) p w) ∧
    (∀ (c : Checker S V) (j : Json) (tail : List Chunk) (req : CheckRequest S V),
      p = "/opt/resource/check" → r.check = some c → w.stdin = .doc j :: tail →
      decodeCheckRequest j = .ok req →
      ∃ more, (Run r args w).1.trace = w.trace ++ .decode :: .call .check :: more) ∧
    (∀ (g : Getter S V G) (j : Json) (tail : List Chunk) (req : GetRequest S V G)
        (dir : String),
      p = "/opt/resource/in" → r.in_ = some g → w.stdin = .doc j :: tail →
      decodeGetRequest j = .ok req → rest.head? = some dir →
      ∃ more, (Run r args w).1.trace = w.trace ++ .decode :: .call .get :: more) ∧
    (∀ (u : Putter S V P) (j : Json) (tail : List Chunk) (req : PutRequest S P)
        (dir : String),
      p = "/opt/resource/out" → r.out = some u → w.stdin = .doc j :: tail →
      decodePutRequest j = .ok req → rest.head? = some dir →
      ∃ more, (Run r args w).1.trace = w.trace ++ .decode :: .call .put :: more) ∧
    (p ≠ "/opt/resource/check" → p ≠ "/opt/resource/in" → p ≠ "/opt/resource/out" →
      ∃ more, (Run r args w).1.trace = w.trace ++ .stat p :: more) ∧
    (∀ evs, (Run r args w).1.trace = w.trace ++ evs →
      (Event.call .check ∈ evs → p = "/opt/resource/check") ∧
      (Event.call .get ∈ evs → p = "/opt/resource/in") ∧
      (Event.call .put ∈ evs → p = "/opt/resource/out") ∧
      (∀ e ∈ evs, e.isFs = true →
        p ≠ "/opt/resource/check" ∧ p ≠ "/opt/resource/in" ∧ p ≠ "/opt/resource/out") ∧
      (∀ e ∈ evs, e.isFs = false →
        p = "/opt/resource/check" ∨ p = "/opt/resource/in" ∨ p = "/opt/resource/out")) ∧
    (p = "/opt/resource/check" ∨ p = "/opt/resource/in" ∨ p = "/opt/resource/out" →
      (Run r args w).1.fs = w.fs ∧ Extends (fun e => !e.isFs) w (Run r args w).1) ∧
    (p ≠ "/opt/resource/check" → p ≠ "/opt/resource/in" → p ≠ "/opt/resource/out" →
      (Run r args w).1.stdin = w.stdin ∧ (Run r args w).1.stdout = w.stdout ∧
        Extends Event.isFs w (Run r args w).1) := by
  have hrun := Run_eq_runFlow r args w a0 rest p hargs habs
  have hev := Run_inFlow r args w a0 rest p hargs habs
  have hcheck : p = "/opt/resource/check" → Run r args w = checkFlow r w := by
    intro hp
    rw [hrun, (selectFlow_check p).mpr hp]
    rfl
  have hget : p = "/opt/resource/in" → Run r args w = getFlow r (a0 :: rest) w := by
    intro hp
    rw [hrun, (selectFlow_get p).mpr hp]
    rfl
  have hput : p = "/opt/resource/out" → Run r args w = putFlow r (a0 :: rest) w := by
    intro hp
    rw [hrun, (selectFlow_put p).mpr hp]
    rfl
  have hinst : p ≠ "/opt/resource/check" → p ≠ "/opt/resource/in" →
      p ≠ "/opt/resource/out" → Run r args w = installFlow r (a0 :: rest) p w := by
    intro h1 h2 h3
    rw [hrun, (selectFlow_install p).mpr ⟨h1, h2, h3⟩]
    rfl
  have hdir : ∀ dir, rest.head? = some dir → (a0 :: rest).get? 1 = some dir := by
    intro dir hd
    cases rest with
    | nil => simp at hd
    | cons b more => simpa using hd
  refine ⟨hcheck, hget, hput, hinst, ?_, ?_, ?_, ?_, ?_, ?_, ?_⟩
  · intro c j tail req hp hc hin hdec
    rw [hcheck hp]
    exact checkFlow_calls r w c j tail req hc hin hdec
  · intro g j tail req dir hp hc hin hdec hd
    rw [hget hp]
    exact getFlow_calls r (a0 :: rest) w g j tail req dir hc hin hdec (hdir dir hd)
  · intro u j tail req dir hp hc hin hdec hd
    rw [hput hp]
    exact putFlow_calls r (a0 :: rest) w u j tail req dir hc hin hdec (hdir dir hd)
  · intro h1 h2 h3
    rw [hinst h1 h2 h3]
    exact installFlow_stats r (a0 :: rest) p w
  · intro evs ht
    obtain ⟨evs2, ht2, hp2⟩ := hev
    have heq : evs = evs2 := List.append_cancel_left (ht.symm.trans ht2)
    subst heq
    refine ⟨?_, ?_, ?_, ?_, ?_⟩
    · intro hmem
      have := hp2 _ hmem
      rw [← selectFlow_check]
      cases hf : selectFlow p <;> simp_all [Event.inFlow, Flow.verb]
    · intro hmem
      have := hp2 _ hmem
      rw [← selectFlow_get]
      cases hf : selectFlow p <;> simp_all [Event.inFlow, Flow.verb]
    · intro hmem
      have := hp2 _ hmem
      rw [← selectFlow_put]
      cases hf : selectFlow p <;> simp_all [Event.inFlow, Flow.verb]
    · intro e hmem hfs
      have hin := hp2 e hmem
      rw [← selectFlow_install]
      by_contra hne
      have := Event.inFlow_verb _ hne e hin
      simp [hfs] at this
    · intro e hmem hfs
      have hin := hp2 e hmem
      by_contra hne
      rw [not_or, not_or] at hne
      rw [(selectFlow_install p).mpr hne, Event.inFlow_install, hfs] at hin
      exact Bool.noConfusion hin
  · intro hp
    have hne : selectFlow p ≠ .install := by
      rw [Ne, selectFlow_install]
      rintro ⟨h1, h2, h3⟩
      rcases hp with h | h | h
      · exact h1 h
      · exact h2 h
      · exact h3 h
    refine ⟨?_, Extends.weaken (Event.inFlow_verb _ hne) hev⟩
    rcases hp with h | h | h
    · rw [hcheck h]
      exact (checkFlow_frame r w).1
    · rw [hget h]
      exact (getFlow_frame r (a0 :: rest) w).1
    · rw [hput h]
      exact (putFlow_frame r (a0 :: rest) w).1
  · intro h1 h2 h3
    rw [hinst h1 h2 h3]
    exact installFlow_frame r (a0 :: rest) p w

/-! ## C2: a verb whose capability is absent -/

/-- C2. When argument zero resolves to the well-known entry point of a verb
whose capability is absent, `Run` returns the error
`"<entry point> not implemented"` and the world is exactly the one it was
called in: nothing is written, nothing is read, and no capability is
called (the trace is unchanged), whatever the input stream holds and
whatever other capabilities are present. -/
theorem C2_not_implemented (r : ResourceType S V G P) (args : List String) (w : World)
    (a0 : String) (rest : List String) (p : String)
    (hargs : effectiveArgs args w = a0 :: rest)
    (habs : filepathAbs w.getwd a0 = .ok p)
    (habsent : (p = "/opt/resource/check" ∧ r.check.isNone) ∨
      (p = "/opt/resource/in" ∧ r.in_.isNone) ∨
      (p = "/opt/resource/out" ∧ r.out.isNone)) :
    Run r args w = (w, .returned (some (.new (p ++ " not implemented")))) ∧
      Untouched w (Run r args w).1 := by
  have hrun := Run_eq_runFlow r args w a0 rest p hargs habs
  have key : Run r args w = (w, .returned (some (.new (p ++ " not implemented")))) := by
    rw [hrun]
    rcases habsent with ⟨hp, hc⟩ | ⟨hp, hc⟩ | ⟨hp, hc⟩
    · subst hp
      rw [Option.isNone_iff_eq_none] at hc
      simp [selectFlow, runFlow, checkFlow, hc]
    · subst hp
      rw [Option.isNone_iff_eq_none] at hc
      simp [selectFlow, runFlow, getFlow, hc]
    · subst hp
      rw [Option.isNone_iff_eq_none] at hc
      simp [selectFlow, runFlow, putFlow, hc]
  refine ⟨key, ?_⟩
  rw [key]
  exact ⟨rfl, rfl, rfl, rfl⟩

/-- Witness of C1: the sample plugin invoked as `/opt/resource/check` runs the
Check flow: it reads the request, calls the Checker, writes the answer and
leaves the filesystem as it is. -/
theorem C1_dispatch_witness :
    Run sampleAll ["/opt/resource/check"] (sampleWorld [sampleRequest]) =
        checkFlow sampleAll (sampleWorld [sampleRequest]) ∧
      (Run sampleAll ["/opt/resource/check"] (sampleWorld [sampleRequest])).1.trace =
        [.decode, .call .check, .write] ∧
      (Run sampleAll ["/opt/resource/check"] (sampleWorld [sampleRequest])).1.fs = sampleFS :=
  have h := C1_dispatch sampleAll ["/opt/resource/check"] (sampleWorld [sampleRequest])
    "/opt/resource/check" [] "/opt/resource/check" (by decide) (by decide)
  ⟨h.1 rfl, by decide, (h.2.2.2.2.2.2.2.2.2.1 (Or.inl rfl)).1⟩

/-- Witness of C2: the Getter-only plugin invoked as `/opt/resource/out`. -/
theorem C2_not_implemented_witness :
    Run sampleGetOnly ["/opt/resource/out", "/tmp/build"] (sampleWorld [sampleRequest]) =
      (sampleWorld [sampleRequest],
        .returned (some (.new ("/opt/resource/out" ++ " not implemented")))) :=
  (C2_not_implemented sampleGetOnly ["/opt/resource/out", "/tmp/build"]
    (sampleWorld [sampleRequest]) "/opt/resource/out" ["/tmp/build"] "/opt/resource/out"
    (by decide) (by decide) (Or.inr (Or.inr ⟨rfl, rfl⟩))).1

/-! ## C3: fields outside the declared request shape -/

/-- C3, as stated, fails. The document `{"Source":{"x":1}}` has the top-level
field `Source`, which is not one of the declared names `source`, `version`;
it is decoded all the same (into the field `source`), the Checker is
called and its answer is written. -/
theorem C3_counterexample :
    "Source" ∉ checkRequestFields ∧
      (Run sampleEcho ["/opt/resource/check"]
        (sampleWorld [.obj [("Source", .obj [("x", .num 1)])]])).2 = .returned none ∧
      (Run sampleEcho ["/opt/resource/check"]
        (sampleWorld [.obj [("Source", .obj [("x", .num 1)])]])).1.trace =
          [.decode, .call .check, .write] ∧
      (Run sampleEcho ["/opt/resource/check"]
        (sampleWorld [.obj [("Source", .obj [("x", .num 1)])]])).1.stdout =
          [.arr [.obj [("x", .num 1)]]] := by
  refine ⟨by decide, by decide, by decide, by rfl⟩

/-- C3, amended. With the capability of the verb present, when the input
document is an object with a top-level field whose name matches none of the
names of the verb's request shape even when the case of letters is
ignored, `Run` returns an error wrapped with the context
`could not decode source`; the document has been read, nothing is written
and the capability is not called. -/
theorem C3_unknown_field (r : ResourceType S V G P) (args : List String) (w : World)
    (a0 : String) (rest : List String) (p : String)
    (members : List (String × Json)) (tail : List Chunk) (key : String) (v : Json)
    (hargs : effectiveArgs args w = a0 :: rest)
    (habs : filepathAbs w.getwd a0 = .ok p)
    (hin : w.stdin = .doc (.obj members) :: tail)
    (hmem : (key, v) ∈ members)
    (hverb : (p = "/opt/resource/check" ∧ r.check.isSome ∧
        ∀ f ∈ checkRequestFields, foldName f ≠ foldName key) ∨
      (p = "/opt/resource/in" ∧ r.in_.isSome ∧
        ∀ f ∈ getRequestFields, foldName f ≠ foldName key) ∨
      (p = "/opt/resource/out" ∧ r.out.isSome ∧
        ∀ f ∈ putRequestFields, foldName f ≠ foldName key)) :
    ∃ e, Run r args w =
      ({ w with stdin := tail, trace := w.trace ++ [.decode] },
        .returned (some (.wrap "could not decode source" e))) := by
  have hrun := Run_eq_runFlow r args w a0 rest p hargs habs
  have hread := readDocument_doc w _ tail hin
  rw [hrun]
  rcases hverb with ⟨hp, hc, hk⟩ | ⟨hp, hc, hk⟩ | ⟨hp, hc, hk⟩
  · subst hp
    obtain ⟨c, hc⟩ := Option.isSome_iff_exists.mp hc
    obtain ⟨e, he⟩ := decodeMembers_unknown checkRequestFields
      (storeCheckRequest (S := S) (V := V)) members key v hmem (matchField_eq_none hk)
      { Source := GoJson.zero, Version := none } none
    exact ⟨e, by
      simp [selectFlow, runFlow, checkFlow, hc, hread, Except.bind, decodeCheckRequest,
        decodeStruct, he]⟩
  · subst hp
    obtain ⟨c, hc⟩ := Option.isSome_iff_exists.mp hc
    obtain ⟨e, he⟩ := decodeMembers_unknown getRequestFields
      (storeGetRequest (S := S) (V := V) (G := G)) members key v hmem (matchField_eq_none hk)
      { Source := GoJson.zero, Version := GoJson.zero, Params := GoJson.zero } none
    exact ⟨e, by
      simp [selectFlow, runFlow, getFlow, hc, hread, Except.bind, decodeGetRequest,
        decodeStruct, he]⟩
  · subst hp
    obtain ⟨c, hc⟩ := Option.isSome_iff_exists.mp hc
    obtain ⟨e, he⟩ := decodeMembers_unknown putRequestFields
      (storePutRequest (S := S) (P := P)) members key v hmem (matchField_eq_none hk)
      { Source := GoJson.zero, Params := GoJson.zero } none
    exact ⟨e, by
      simp [selectFlow, runFlow, putFlow, hc, hread, Except.bind, decodePutRequest,
        decodeStruct, he]⟩

/-- Witness of C3: a Get request with the extra top-level field `extra`. -/
theorem C3_unknown_field_witness :
    ∃ e, Run sampleAll ["/opt/resource/in", "/tmp/build"]
        (sampleWorld [.obj [("source", .null), ("extra", .num 1)]]) =
      ({ sampleWorld [.obj [("source", .null), ("extra", .num 1)]] with
          stdin := [], trace := [] ++ [.decode] },
        .returned (some (.wrap "could not decode source" e))) :=
  C3_unknown_field sampleAll ["/opt/resource/in", "/tmp/build"]
    (sampleWorld [.obj [("source", .null), ("extra", .num 1)]])
    "/opt/resource/in" ["/tmp/build"] "/opt/resource/in"
    [("source", .null), ("extra", .num 1)] [] "extra" (.num 1)
    (by decide) (by decide) rfl (by simp)
    (Or.inr (Or.inl ⟨rfl, rfl, by decide⟩))

/-! ## C4: the response document -/

/-- C4, as stated, fails, in four ways. (1) The Get flow reads `args[1]` without a
check: with the argument list `["/opt/resource/in"]`, a well-formed request and
a Getter that would succeed, `Run` panics and writes nothing. (2) The value may
not be marshalled: a Checker that returns a `Sealed` version without error
makes `Run` return the error `could not output versions`, and nothing is
written. (3) The output stream may refuse the write: `Run` returns the same
kind of error. (4) What is written need not decode to what was returned: a
Getter that returns a metadata field whose name is the byte `0xff` makes
`Run` succeed with a document in which that name is U+FFFD, so the reader
decodes another response. -/
theorem C4_counterexample :
    ((decodeGetRequest sampleRequest :
        Except GoError (GetRequest Json Json Json)).toOption.isSome ∧
      (Run sampleAll ["/opt/resource/in"] (sampleWorld [sampleRequest])).2 =
        .panicked "runtime error: index out of range [1] with length 1" ∧
      (Run sampleAll ["/opt/resource/in"] (sampleWorld [sampleRequest])).1.stdout.length = 0) ∧
    ((Run sampleSealed ["/opt/resource/check"] (sampleWorld [sampleRequest])).2 =
        .returned (some (.wrap "could not output versions"
          (.wrap "json: error calling MarshalJSON for type main.Sealed" (.new "sealed")))) ∧
      (Run sampleSealed ["/opt/resource/check"] (sampleWorld [sampleRequest])).1.stdout.length
        = 0) ∧
    ((Run sampleAll ["/opt/resource/check"]
        { sampleWorld [sampleRequest] with stdoutFault := some sampleBrokenPipe }).2 =
        .returned (some (.wrap "could not output versions" sampleBrokenPipe)) ∧
      (Run sampleAll ["/opt/resource/check"]
        { sampleWorld [sampleRequest] with stdoutFault := some sampleBrokenPipe }).1.stdout.length
        = 0) ∧
    ((Run sampleBadText ["/opt/resource/in", "/tmp/build"] (sampleWorld [sampleRequest])).2 =
        .returned none ∧
      (Run sampleBadText ["/opt/resource/in", "/tmp/build"] (sampleWorld [sampleRequest])).1.stdout =
        [.obj [("version", .null),
          ("metadata", .arr [.obj [("name", .str "\uFFFD"), ("value", .str "v")]])]] ∧
      ((unmarshalResponse
          (.obj [("version", .null),
            ("metadata", .arr [.obj [("name", .str "\uFFFD"), ("value", .str "v")]])]) :
          Except GoError (Response Json)).map (fun resp => resp.Metadata)) =
        .ok (.mk [{ Name := [.rune (Char.ofNat 0xFFFD)], Value := GoString.ofString "v" }]) ∧
      (GoSlice.mk [({ Name := [.rune (Char.ofNat 0xFFFD)], Value := GoString.ofString "v" } :
          MetadataField)]) ≠
        .mk [{ Name := [.invalid ⟨255, by decide⟩], Value := GoString.ofString "v" }]) := by
  refine ⟨⟨by rfl, by decide, by decide⟩, ⟨by decide, by decide⟩, ⟨by decide, by decide⟩,
    by decide, by rfl, by rfl, by decide⟩

/-- C4, amended. For each verb, when the request document decodes, the
argument list has the target directory the Get and Put flows read (a second
argument), the capability returns `x` without error, `x` can be marshalled
and the output stream accepts the write, then `Run` returns no error, has
read the one request document, called the capability once and appended
exactly one document to the output stream; when moreover the codec of the
version type round-trips and (for Get and Put) the strings of the metadata
of `x` are valid UTF-8, decoding that document yields `x`. -/
theorem C4_round_trip (r : ResourceType S V G P) (args : List String) (w : World)
    (a0 : String) (rest : List String) (p : String) (j out : Json) (tail : List Chunk)
    (hargs : effectiveArgs args w = a0 :: rest)
    (habs : filepathAbs w.getwd a0 = .ok p)
    (hin : w.stdin = .doc j :: tail)
    (hout : w.stdoutFault = none) :
    (∀ (c : Checker S V) (req : CheckRequest S V) (x : GoSlice V),
      p = "/opt/resource/check" → r.check = some c → decodeCheckRequest j = .ok req →
      c req = .ok x → marshalSlice x = .ok out →
      Run r args w =
          ({ w with stdin := tail, stdout := w.stdout ++ [out],
                    trace := w.trace ++ [.decode, .call .check, .write] },
            .returned none) ∧
        (RoundTrips V → unmarshalSlice out = .ok x)) ∧
    (∀ (g : Getter S V G) (req : GetRequest S V G) (dir : String) (x : Response V),
      p = "/opt/resource/in" → r.in_ = some g → decodeGetRequest j = .ok req →
      rest.head? = some dir → g dir req = .ok x → marshalResponse x = .ok out →
      Run r args w =
          ({ w with stdin := tail, stdout := w.stdout ++ [out],
                    trace := w.trace ++ [.decode, .call .get, .write] },
            .returned none) ∧
        (RoundTrips V → x.ValidText → unmarshalResponse out = .ok x)) ∧
    (∀ (u : Putter S V P) (req : PutRequest S P) (dir : String) (x : Response V),
      p = "/opt/resource/out" → r.out = some u → decodePutRequest j = .ok req →
      rest.head? = some dir → u dir req = .ok x → marshalResponse x = .ok out →
      Run r args w =
          ({ w with stdin := tail, stdout := w.stdout ++ [out],
                    trace := w.trace ++ [.decode, .call .put, .write] },
            .returned none) ∧
        (RoundTrips V → x.ValidText → unmarshalResponse out = .ok x)) := by
  have hrun := Run_eq_runFlow r args w a0 rest p hargs habs
  have hread := readDocument_doc w j tail hin
  rw [hrun]
  refine ⟨?_, ?_, ?_⟩
  · intro c req x hp hc hdec hcall hm
    subst hp
    refine ⟨?_, fun hrt => unmarshalSlice_marshalSlice hrt x out hm⟩
    simp [selectFlow, runFlow, checkFlow, hc, hread, Except.bind, hdec, hcall, hm,
      writeDocument, World.log, hout]
  · intro g req dir x hp hc hdec hdir hcall hm
    subst hp
    refine ⟨?_, fun hrt hv => unmarshalResponse_marshalResponse hrt x hv out hm⟩
    cases rest with
    | nil => simp at hdir
    | cons d rest2 =>
      simp only [List.head?_cons, Option.some.injEq] at hdir
      subst hdir
      simp [selectFlow, runFlow, getFlow, hc, hread, Except.bind, hdec, hcall, hm,
        writeDocument, World.log, hout]
  · intro u req dir x hp hc hdec hdir hcall hm
    subst hp
    refine ⟨?_, fun hrt hv => unmarshalResponse_marshalResponse hrt x hv out hm⟩
    cases rest with
    | nil => simp at hdir
    | cons d rest2 =>
      simp only [List.head?_cons, Option.some.injEq] at hdir
      subst hdir
      simp [selectFlow, runFlow, putFlow, hc, hread, Except.bind, hdec, hcall, hm,
        writeDocument, World.log, hout]

theorem roundTrips_rawMessage : RoundTrips Json := by
  refine ⟨?_, ?_⟩
  · intro x j h
    simp only [GoJson.marshal, Except.ok.injEq] at h
    subst h
    rfl
  · intro b hb
    simp [GoJson.bytes] at hb

/-- Witness of C4: the end-to-end scenario of the specification. The input of
`check` is `{"source":{"x":1},"version":null}`, the Checker returns
`[{"y":1},{"y":2}]`; the output is exactly that array, and it decodes to
the returned slice. And the Get flow of the same plugin with the target
directory `/tmp/build`: the response it writes decodes to the response of
the Getter. -/
theorem C4_round_trip_witness :
    (Run sampleAll ["/opt/resource/check"] (sampleWorld [sampleRequest]) =
        ({ sampleWorld [sampleRequest] with
            stdin := [], stdout := [] ++ [.arr sampleVersions],
            trace := [] ++ [.decode, .call .check, .write] },
          .returned none) ∧
      unmarshalSlice (.arr sampleVersions) = .ok (GoSlice.mk sampleVersions)) ∧
    (unmarshalResponse
        (.obj [("version", .null),
          ("metadata", .arr [.obj [("name", .str "dir"), ("value", .str "/tmp/build")]])]) =
      .ok ({ Version := Json.null,
             Metadata := .mk [{ Name := GoString.ofString "dir",
                                Value := GoString.ofString "/tmp/build" }] } :
        Response Json)) :=
  have hc := (C4_round_trip sampleAll ["/opt/resource/check"] (sampleWorld [sampleRequest])
    "/opt/resource/check" [] "/opt/resource/check" sampleRequest (.arr sampleVersions) []
    (by decide) (by decide) rfl rfl).1
    (fun _ => .ok (.mk sampleVersions))
    { Source := .obj [("x", .num 1)], Version := none } (.mk sampleVersions)
    rfl rfl rfl rfl rfl
  have hg := (C4_round_trip sampleAll ["/opt/resource/in", "/tmp/build"]
    (sampleWorld [sampleRequest]) "/opt/resource/in" ["/tmp/build"] "/opt/resource/in"
    sampleRequest
    (.obj [("version", .null),
      ("metadata", .arr [.obj [("name", .str "dir"), ("value", .str "/tmp/build")]])]) []
    (by decide) (by decide) rfl rfl).2.1
    (fun dir req =>
      .ok { Version := req.Version,
            Metadata := .mk [{ Name := GoString.ofString "dir",
                               Value := GoString.ofString dir }] })
    { Source := .obj [("x", .num 1)], Version := .null, Params := .null } "/tmp/build"
    { Version := Json.null,
      Metadata := .mk [{ Name := GoString.ofString "dir",
                         Value := GoString.ofString "/tmp/build" }] }
    rfl rfl rfl rfl rfl rfl
  ⟨⟨hc.1, hc.2 roundTrips_rawMessage⟩,
    hg.2 roundTrips_rawMessage (by
      intro m hm
      simp only [GoSlice.toList, List.mem_singleton] at hm
      subst hm
      exact ⟨fun g hg => by
          simp only [GoString.ofString, List.mem_map] at hg
          obtain ⟨c, -, rfl⟩ := hg
          exact ⟨c, rfl⟩,
        fun g hg => by
          simp only [GoString.ofString, List.mem_map] at hg
          obtain ⟨c, -, rfl⟩ := hg
          exact ⟨c, rfl⟩⟩)⟩

/-! ## C5: the document of a successful Check -/

/-- C5 at the failing input. A Checker that returns a slice it never
allocated makes `Run` succeed with the single document `null` on the output
stream, which is not the empty array. (An allocated slice is written as
the array of its elements in order: the empty one as `[]`, the sample
versions as `[{"y":1},{"y":2}]`.) -/
theorem C5_nil_versions_written_as_null :
    (Run sampleNilChecker ["/opt/resource/check"] (sampleWorld [sampleRequest])).2 =
        .returned none ∧
      (Run sampleNilChecker ["/opt/resource/check"] (sampleWorld [sampleRequest])).1.stdout =
        [Json.null] ∧
      Json.null ≠ Json.arr [] ∧
      (Run sampleEmptyChecker ["/opt/resource/check"] (sampleWorld [sampleRequest])).1.stdout =
        [Json.arr []] ∧
      (Run sampleAll ["/opt/resource/check"] (sampleWorld [sampleRequest])).1.stdout =
        [Json.arr [.obj [("y", .num 1)], .obj [("y", .num 2)]]] := by
  refine ⟨by decide, by rfl, by simp, by rfl, by rfl⟩

/-! ## C6: errors of a capability -/

/-- C6 at the failing input. The Putter of the sample plugin fails with
`sampleFailure`. `Run` wraps that error unchanged and writes nothing, but
the context it adds is `get failed`, the context of the Get flow. (The
Check flow of a failing Checker adds `check failed`.) -/
theorem C6_put_failure_reported_as_get :
    Run sampleAll ["/opt/resource/out", "/tmp/build"] (sampleWorld [samplePutRequest]) =
        ({ sampleWorld [samplePutRequest] with
            stdin := [], trace := [.decode, .call .put] },
          .returned (some (.wrap "get failed" sampleFailure))) ∧
      (GoError.wrap "get failed" sampleFailure).message = "get failed: resource unreachable" ∧
      (GoError.wrap "get failed" sampleFailure).unwrap = some sampleFailure := by
  refine ⟨by rfl, by decide, by rfl⟩

/-! ## C8: the symbolic-link check of the Install flow -/

/-- C8 at the failing input. In the sample filesystem `/usr/bin/alias` is
itself a symbolic link (`os.Lstat` reports `ModeSymlink`), to the existing file
`/usr/bin/plugin`. `Run` with `["/usr/bin/alias", "install"]` does not fail:
`os.Stat` follows the link, so the mode it reports never has `ModeSymlink`;
the installation directory and the three links are made, each a link to the
link. (A binary path that does not exist is refused and the filesystem is
left as it is.) -/
theorem C8_symlinked_binary_is_installed :
    osLstat sampleFS "/usr/bin/alias" = .ok { Mode := ModeSymlink } ∧
      osStat sampleFS "/usr/bin/alias" = .ok { Mode := 0 } ∧
      (Run sampleAll ["/usr/bin/alias", "install"] (sampleWorld [])).2 = .returned none ∧
      (Run sampleAll ["/usr/bin/alias", "install"] (sampleWorld [])).1.trace =
        [.stat "/usr/bin/alias", .mkdirAll "/opt/resource",
          .symlink "/usr/bin/alias" "/opt/resource/check",
          .symlink "/usr/bin/alias" "/opt/resource/in",
          .symlink "/usr/bin/alias" "/opt/resource/out"] ∧
      osReadlink (Run sampleAll ["/usr/bin/alias", "install"] (sampleWorld [])).1.fs
        "/opt/resource/check" = .ok "/usr/bin/alias" ∧
      (Run sampleAll ["/usr/bin/missing", "install"] (sampleWorld [])).2 =
        .returned (some (.new "/usr/bin/missing must not be a symbolic link")) ∧
      (Run sampleAll ["/usr/bin/missing", "install"] (sampleWorld [])).1.fs = sampleFS := by
  refine ⟨by decide, by decide, by decide, by decide, by decide, by decide, by rfl⟩

/-! ## C9: arguments other than `install` -/

/-- C9, as stated, fails. The binary path is examined before the arguments:
with `["/usr/bin/missing", "deploy"]`, routed to the Install flow, `Run` fails
with the symbolic-link error and not with an error about the arguments. -/
theorem C9_counterexample :
    selectFlow "/usr/bin/missing" = .install ∧
      (Run sampleAll ["/usr/bin/missing", "deploy"] (sampleWorld [])).2 =
        .returned (some (.new "/usr/bin/missing must not be a symbolic link")) := by
  refine ⟨by decide, by decide⟩

/-- C9, amended. When argument zero resolves to a path `p` that is routed to
the Install flow and that `os.Stat` finds, and the second argument is missing
or is not exactly `install`, `Run` fails with an error whose message
enumerates the arguments and ends in `, only 'install' is allowed`; the only
primitive performed is the `os.Stat` of `p`: neither the installation
directory nor any link is made, and the filesystem is the one `Run` was
called in. -/
theorem C9_unrecognized_arguments (r : ResourceType S V G P) (args : List String) (w : World)
    (a0 : String) (rest : List String) (p : String) (info : FileInfo)
    (hargs : effectiveArgs args w = a0 :: rest)
    (habs : filepathAbs w.getwd a0 = .ok p)
    (hflow : selectFlow p = .install)
    (hstat : osStat w.fs p = .ok info)
    (hrest : rest.head? ≠ some "install") :
    ∃ label : String,
      Run r args w =
        (w.log (.stat p),
          .returned (some (.new
            (label ++ " " ++ formatArgs (a0 :: rest) ++ ", only 'install' is allowed")))) ∧
      (Run r args w).1.fs = w.fs := by
  have hrun := Run_eq_runFlow r args w a0 rest p hargs habs
  have hmode := osStat_not_symlink w.fs p info hstat
  have hbad : (a0 :: rest).length < 2 ∨ (a0 :: rest).get? 1 ≠ some "install" := by
    cases rest with
    | nil => left; simp
    | cons b more => right; simpa using hrest
  refine ⟨"unrecogized arguments", ?_⟩
  rw [hrun, hflow]
  simp only [runFlow, installFlow, hstat, Except.toOption]
  rw [if_neg (by simp [hmode]), if_pos hbad]
  exact ⟨rfl, rfl⟩

/-! ## C7: a successful installation -/

/-- C7. In a (well-formed) filesystem in which the resolved binary path `p`
exists and is not a symbolic link, `/opt/resource` can be ensured and none of
the three well-known entry points exists, `Run` with the arguments
`[binary, "install"]` succeeds, and afterwards a link to `p` is at
`/opt/resource/check` iff the Checker is present, at `/opt/resource/in` iff the
Getter is present and at `/opt/resource/out` iff the Putter is present; at the
entry point of an absent capability there is nothing. -/
theorem C7_install (r : ResourceType S V G P) (args : List String) (w : World)
    (a0 : String) (rest : List String) (p : String) (info : FileInfo)
    (hargs : effectiveArgs args w = a0 :: rest)
    (habs : filepathAbs w.getwd a0 = .ok p)
    (hinstall : rest = ["install"])
    (hwf : w.fs.WF)
    (hexists : osLstat w.fs p = .ok info)
    (hnotlink : info.Mode &&& ModeSymlink ≠ ModeSymlink)
    (hensure : (osMkdirAll w.fs "/opt/resource").2 = none)
    (hfree : ∀ entry ∈ ["/opt/resource/check", "/opt/resource/in", "/opt/resource/out"],
      ∀ i, osLstat w.fs entry ≠ .ok i) :
    (Run r args w).2 = .returned none ∧
    (osReadlink (Run r args w).1.fs "/opt/resource/check" = .ok p ↔ r.check.isSome = true) ∧
    (osReadlink (Run r args w).1.fs "/opt/resource/in" = .ok p ↔ r.in_.isSome = true) ∧
    (osReadlink (Run r args w).1.fs "/opt/resource/out" = .ok p ↔ r.out.isSome = true) ∧
    (r.check.isSome = false →
      osLstat (Run r args w).1.fs "/opt/resource/check" = .error .ENOENT) ∧
    (r.in_.isSome = false →
      osLstat (Run r args w).1.fs "/opt/resource/in" = .error .ENOENT) ∧
    (r.out.isSome = false →
      osLstat (Run r args w).1.fs "/opt/resource/out" = .error .ENOENT) := by
  have hflow : selectFlow p = .install := by
    rw [selectFlow_install]
    refine ⟨?_, ?_, ?_⟩ <;> rintro rfl <;> exact hfree _ (by simp) info hexists
  have hrun := Run_eq_runFlow r args w a0 rest p hargs habs
  rw [hflow] at hrun
  have hstat := osStat_of_osLstat w.fs p info hexists hnotlink
  obtain ⟨fs1, hmk⟩ : ∃ fs1, osMkdirAll w.fs "/opt/resource" = (fs1, none) :=
    ⟨(osMkdirAll w.fs "/opt/resource").1, by rw [← hensure]⟩
  obtain ⟨D, hens⟩ := osMkdirAll_ensured w.fs fs1 hmk
  have hc := hens.free hwf (x := "check") (E := "/opt/resource/check")
    (by decide) (by decide) (hfree _ (by simp))
  have hi := hens.free hwf (x := "in") (E := "/opt/resource/in")
    (by decide) (by decide) (hfree _ (by simp))
  have ho := hens.free hwf (x := "out") (E := "/opt/resource/out")
    (by decide) (by decide) (hfree _ (by simp))
  have hlinks := installFlow_links r (a0 :: rest) p w info fs1 D hstat
    (by rw [hinstall]; rfl) hmk hens.1 hc hi ho
  obtain ⟨hF, lc, li, lo⟩ :=
    linkFS_three r.check.isSome r.in_.isSome r.out.isSome fs1 D p hens.1 hc hi ho
  rw [hrun]
  simp only [runFlow]
  rw [hlinks.2]
  have rc := entry_readback r.check.isSome p hF (x := "check")
    (E := "/opt/resource/check") (by decide) (by decide) lc
  have ri := entry_readback r.in_.isSome p hF (x := "in")
    (E := "/opt/resource/in") (by decide) (by decide) li
  have ro := entry_readback r.out.isSome p hF (x := "out")
    (E := "/opt/resource/out") (by decide) (by decide) lo
  exact ⟨hlinks.1, rc.1, ri.1, ro.1, rc.2, ri.2, ro.2⟩

/-- Witness of C7: the Getter-only plugin `/usr/bin/plugin` installs itself in
the sample filesystem; only `/opt/resource/in` is made. -/
theorem C7_install_witness :
    (Run sampleGetOnly ["/usr/bin/plugin", "install"] (sampleWorld [])).2 = .returned none ∧
      osReadlink (Run sampleGetOnly ["/usr/bin/plugin", "install"] (sampleWorld [])).1.fs
        "/opt/resource/in" = .ok "/usr/bin/plugin" ∧
      osLstat (Run sampleGetOnly ["/usr/bin/plugin", "install"] (sampleWorld [])).1.fs
        "/opt/resource/check" = .error .ENOENT ∧
      osLstat (Run sampleGetOnly ["/usr/bin/plugin", "install"] (sampleWorld [])).1.fs
        "/opt/resource/out" = .error .ENOENT :=
  have h := C7_install sampleGetOnly ["/usr/bin/plugin", "install"] (sampleWorld [])
    "/usr/bin/plugin" ["install"] "/usr/bin/plugin" { Mode := 0 }
    (by decide) (by decide) rfl sampleFS_wf (by decide) (by decide) (by decide)
    (by
      intro entry he i
      simp only [List.mem_cons, List.mem_singleton, List.not_mem_nil, or_false] at he
      have hnone : osLstat (sampleWorld []).fs entry = .error .ENOENT := by
        rcases he with rfl | rfl | rfl <;> decide
      rw [hnone]
      exact fun h => Except.noConfusion h)
  ⟨h.1, h.2.2.1.mpr rfl, h.2.2.2.2.1 rfl, h.2.2.2.2.2.2 rfl⟩

/-- Witness of C9: `["/usr/bin/plugin", "deploy"]`. -/
theorem C9_unrecognized_arguments_witness :
    ∃ label : String,
      Run sampleAll ["/usr/bin/plugin", "deploy"] (sampleWorld []) =
        ((sampleWorld []).log (.stat "/usr/bin/plugin"),
          .returned (some (.new
            (label ++ " " ++ formatArgs ["/usr/bin/plugin", "deploy"] ++
              ", only 'install' is allowed")))) ∧
      (Run sampleAll ["/usr/bin/plugin", "deploy"] (sampleWorld [])).1.fs = (sampleWorld []).fs :=
  C9_unrecognized_arguments sampleAll ["/usr/bin/plugin", "deploy"] (sampleWorld [])
    "/usr/bin/plugin" ["deploy"] "/usr/bin/plugin" { Mode := 0 }
    (by decide) (by decide) (by decide) (by decide) (by decide)

/-! ## C10: a link that cannot be made -/

/-- C10. Past the examination of the binary and of the arguments and with
`/opt/resource` ensured, `Run` makes the links of the capabilities present one
after the other in the order check, in, out (`linkAll` over `plannedNames`).
When the links of the names `done` have been made and the link of the next
name `x` cannot be made, `Run` returns the error
`could not create /opt/resource/<x> link` wrapping the error of `os.Symlink`;
the filesystem is the one the links of `done` left (each of them is a link
to the binary: nothing is rolled back), the trace ends with the attempt for
`x` (no later link is attempted), and an entry that was at the path of `x`
(which makes `os.Symlink` fail with `EEXIST`) is still there, unchanged. -/
theorem C10_link_failure (r : ResourceType S V G P) (args : List String) (w : World)
    (a0 : String) (rest : List String) (p : String) (info : FileInfo) (fs1 : FS)
    (done later : List String) (x : String) (wk : World) (e : Errno)
    (hargs : effectiveArgs args w = a0 :: rest)
    (habs : filepathAbs w.getwd a0 = .ok p)
    (hflow : selectFlow p = .install)
    (hstat : osStat w.fs p = .ok info)
    (hinstall : rest.head? = some "install")
    (hmk : osMkdirAll w.fs "/opt/resource" = (fs1, none))
    (hplan : plannedNames r = done ++ x :: later)
    (hdone : linkAll p done (afterMkdirAll w p fs1) = (wk, none))
    (hfail : osSymlink wk.fs p (entryPoint x) = .error e) :
    Run r args w =
        ((linkAll p (plannedNames r) (afterMkdirAll w p fs1)).1,
          .returned (linkAll p (plannedNames r) (afterMkdirAll w p fs1)).2) ∧
      Run r args w =
        (wk.log (.symlink p (entryPoint x)),
          .returned (some (.wrap ("could not create " ++ entryPoint x ++ " link")
            (e.toError ("symlink " ++ p ++ " " ++ entryPoint x))))) ∧
      (Run r args w).1.trace =
        w.trace ++ [.stat p, .mkdirAll "/opt/resource"] ++
          (done ++ [x]).map (fun y => Event.symlink p (entryPoint y)) ∧
      (Run r args w).1.fs = wk.fs ∧
      (∀ d ∈ done, osReadlink (Run r args w).1.fs (entryPoint d) = .ok p) ∧
      (∀ i, osLstat wk.fs (entryPoint x) = .ok i →
        e = .EEXIST ∧ osLstat (Run r args w).1.fs (entryPoint x) = .ok i) := by
  have hrun := Run_eq_runFlow r args w a0 rest p hargs habs
  have hget : (a0 :: rest).get? 1 = some "install" := by
    cases rest with
    | nil => simp at hinstall
    | cons b more => simpa using hinstall
  have hlinks : Run r args w =
      ((linkAll p (plannedNames r) (afterMkdirAll w p fs1)).1,
        .returned (linkAll p (plannedNames r) (afterMkdirAll w p fs1)).2) := by
    rw [hrun, hflow]
    simp only [runFlow]
    rw [installFlow_eq_makeLinks r _ p w info fs1 hstat hget hmk, makeLinks_eq_linkAll]
  have hall : linkAll p (plannedNames r) (afterMkdirAll w p fs1) =
      (wk.log (.symlink p (entryPoint x)),
        some (.wrap ("could not create " ++ entryPoint x ++ " link")
          (e.toError ("symlink " ++ p ++ " " ++ entryPoint x)))) := by
    rw [hplan, linkAll_append, hdone]
    simp [linkAll, linkStep, hfail]
  have hfinal : Run r args w =
      (wk.log (.symlink p (entryPoint x)),
        .returned (some (.wrap ("could not create " ++ entryPoint x ++ " link")
          (e.toError ("symlink " ++ p ++ " " ++ entryPoint x))))) := by
    rw [hlinks, hall]
  have htrace := linkAll_trace p done _ wk hdone
  obtain ⟨D, hens⟩ := osMkdirAll_ensured w.fs fs1 hmk
  have hsub := plannedNames_sublist r
  have hnd : done.Nodup := by
    have h3 : (["check", "in", "out"] : List String).Nodup := by decide
    have hpl := h3.sublist hsub
    rw [hplan] at hpl
    exact (List.nodup_append.mp hpl).1
  have hmem : ∀ d ∈ done, d ∈ ["check", "in", "out"] := by
    intro d hd
    apply hsub.subset
    rw [hplan]
    exact List.mem_append_left _ hd
  obtain ⟨hDk, hin, -⟩ := linkAll_links p D done (afterMkdirAll w p fs1) wk hdone hens.1 hnd
    (fun d hd => entryPoint_comps d (hmem d hd))
  refine ⟨hlinks, hfinal, ?_, ?_, ?_, ?_⟩
  · rw [hfinal]
    simp [World.log, htrace, afterMkdirAll]
  · rw [hfinal]
    rfl
  · intro d hd
    rw [hfinal]
    simp only [World.log_fs]
    obtain ⟨hc, hdd⟩ := entryPoint_comps d (hmem d hd)
    rw [osReadlink_in_dir hDk hc hdd, hin d hd]
  · intro i hi
    rw [hfinal]
    refine ⟨?_, hi⟩
    rw [osSymlink_exists wk.fs p (entryPoint x) i hi] at hfail
    simp only [Except.error.injEq] at hfail
    exact hfail.symm

/-- Witness of C10: a second install, now of the plugin with all three
capabilities, where `/opt/resource/in` is there already. The link for check is
made, the link for in fails, the link for out is not attempted. -/
theorem C10_link_failure_witness :
    (Run sampleAll ["/usr/bin/plugin", "install"] sampleInstalledWorld).1.trace =
        sampleInstalledWorld.trace ++ [.stat "/usr/bin/plugin", .mkdirAll "/opt/resource"] ++
          (["check"] ++ ["in"]).map (fun y => Event.symlink "/usr/bin/plugin" (entryPoint y)) ∧
      (∀ d ∈ ["check"],
        osReadlink (Run sampleAll ["/usr/bin/plugin", "install"] sampleInstalledWorld).1.fs
          (entryPoint d) = .ok "/usr/bin/plugin") :=
  have h := C10_link_failure sampleAll ["/usr/bin/plugin", "install"] sampleInstalledWorld
    "/usr/bin/plugin" ["install"] "/usr/bin/plugin" { Mode := 0 }
    (osMkdirAll sampleInstalledWorld.fs "/opt/resource").1
    ["check"] ["out"] "in"
    (linkAll "/usr/bin/plugin" ["check"]
      (afterMkdirAll sampleInstalledWorld "/usr/bin/plugin"
        (osMkdirAll sampleInstalledWorld.fs "/opt/resource").1)).1
    .EEXIST
    (by decide) (by decide) (by decide) (by decide) (by decide)
    (Prod.ext rfl (by decide)) (by decide) (Prod.ext rfl (by decide))
    (osSymlink_exists _ _ _ { Mode := ModeSymlink } (by decide))
  ⟨h.2.2.1, h.2.2.2.2.1⟩

end Claims

end Framework
